import Mathlib

/-! HyperLogLog: a shallow embedding of `hyperloglog.go` and `exact_estimator.go`.

Machine words are natural numbers.  A `uint64` is a natural number below `2 ^ 64`
and every operation that can leave that range is reduced modulo `2 ^ 64`; a `byte`
is reduced modulo `256`; `uint` is taken to be 64 bits wide.  A Go panic (the
explicit one in `NewHLL`, an index out of range in `Add`) is the result `none`.
The `for` loop of `CountLeadingZeros` is run with fuel, one unit per iteration, and
running out of fuel is `none` as well.

The `float64` arithmetic of `Count` is read as exact arithmetic: the raw estimate
is a rational number (it only uses `+`, `*`, `/` and powers of two), the linear
counting estimate is a real number (it uses the natural logarithm).  The conversion
`uint64(math.Floor(x))` is `uint64Floor x`: the floor of `x` for `0 ≤ x < 2 ^ 64`,
and `2 ^ 63` for `x ≥ 2 ^ 64`, where the value does not fit, the Go specification
leaves the result to the implementation, and the gc compiler's conversion gives
`2 ^ 63`.  `CountValue` is the number `x` itself, so that its range can be stated.
In Lean a quotient by 0 is 0, where `float64` gives an infinity; the theorems about
`Count` are about states with `2 ^ registerWidth` registers, on which no divisor
is 0.
-/

namespace HyperLogLog

/-! ## Machine-word operations -/

/-- The Go expression `x << n` on a `uint64`: bits shifted out at the top are lost,
and a shift count of 64 or more gives 0. -/
def shl64 (x n : Nat) : Nat :=
  if n < 64 then (x <<< n) % 2 ^ 64 else 0

/-- The Go expression `x >> n` on a `uint64`: a shift count of 64 or more gives 0. -/
def shr64 (x n : Nat) : Nat :=
  if n < 64 then x >>> n else 0

/-- The Go expression `a - b` on `uint` (64 bits wide), for `a, b < 2 ^ 64`. -/
def usub (a b : Nat) : Nat :=
  (a + 2 ^ 64 - b) % 2 ^ 64

/-! ## Bit utilities (`hyperloglog.go`, lines 10-63) -/

/-- The loop of `CountLeadingZeros`:
`for j := i; (j != 0) && (j&0x8000000000000000 == 0); j = j << 1 { zeros++ }`.
The first argument is the number of iterations the loop may still make; `zeros` is
a `byte`.  The result is the value of `zeros` when the loop condition fails, and
`none` when the iterations are used up while the condition still holds. -/
def CountLeadingZerosLoop : Nat → Nat → Nat → Option Nat
  | 0, j, zeros =>
    if j ≠ 0 ∧ j &&& 0x8000000000000000 = 0 then none else some zeros
  | fuel + 1, j, zeros =>
    if j ≠ 0 ∧ j &&& 0x8000000000000000 = 0 then
      CountLeadingZerosLoop fuel (shl64 j 1) ((zeros + 1) % 256)
    else some zeros

/-- The function `CountLeadingZeros`: 64 for the word 0, otherwise the loop started
with `zeros = 0`.  The loop is given 64 iterations. -/
def CountLeadingZeros (i : Nat) : Option Nat :=
  if i = 0 then some 64 else CountLeadingZerosLoop 64 i 0

/-- The function `SplitWord64`: `head := word >> (64 - n)`, `tail := word << n`. -/
def SplitWord64 (word n : Nat) : Nat × Nat :=
  (shr64 word (usub 64 n), shl64 word n)

/-- The function `HarmonicMean`: `sum` starts at 0, every element `i` adds
`math.Pow(2, -float64(i))`, the result is `1.0 / sum`. -/
def HarmonicMean (arr : List Nat) : ℚ :=
  1 / arr.foldl (fun (sum : ℚ) (i : Nat) => sum + (2 : ℚ) ^ (-(i : ℤ))) 0

/-- The function `HLLConstant`: `0.7213 / (1.0 + 1.079/float64(registerCount))`. -/
def HLLConstant (registerCount : Nat) : ℚ :=
  0.7213 / (1 + 1.079 / (registerCount : ℚ))

/-! ## The probabilistic estimator (`hyperloglog.go`, lines 65-164) -/

/-- The struct `HLLEstimator`. -/
structure HLLEstimator where
  registerWidth : Nat
  registers : List Nat
  deriving DecidableEq

/-- The function `NewHLL`: panics unless `8 ≤ registerWidth ≤ 20`, otherwise
returns an estimator with `1 << registerWidth` zero registers. -/
def NewHLL (registerWidth : Nat) : Option HLLEstimator :=
  if registerWidth < 8 ∨ registerWidth > 20 then none
  else
    let registerCount := 1 <<< registerWidth
    some { registerWidth := registerWidth, registers := List.replicate registerCount 0 }

/-- The method `HLLEstimator.Add`, as a function from the state before to the state
after.  `count` is a `byte`; reading `e.registers[register]` panics when the index
is out of range. -/
def Add (e : HLLEstimator) (key : Nat) : Option HLLEstimator :=
  let split := SplitWord64 key e.registerWidth
  let register := split.1
  let remainder := split.2
  match CountLeadingZeros remainder with
  | none => none
  | some zeros =>
    let count := (zeros + 1) % 256
    let count := if remainder = 0 then ((usub 64 e.registerWidth + 1) % 2 ^ 64) % 256 else count
    match e.registers[register]? with
    | none => none
    | some currentCount =>
      if count > currentCount then
        some { e with registers := e.registers.set register count }
      else some e

/-- A sequence of `Add` calls, first key first. -/
def AddAll : HLLEstimator → List Nat → Option HLLEstimator
  | e, [] => some e
  | e, key :: keys =>
    match Add e key with
    | none => none
    | some e1 => AddAll e1 keys

/-- The Go expression `uint64(math.Floor(x))` for a float64 `x ≥ 0` read as an exact
number: the floor of `x` when it is below `2 ^ 64`.  For `x ≥ 2 ^ 64` the floor is
not a `uint64`; the Go specification then leaves the result of the conversion to the
implementation, and the value here, `2 ^ 63`, is the one the gc compiler's
conversion gives (on amd64 and in the runtime's software conversion). -/
def uint64Floor {α : Type} [LinearOrderedField α] [FloorSemiring α] (x : α) : Nat :=
  if x < 2 ^ 64 then ⌊x⌋₊ else 2 ^ 63

/-- The method `countZeros`: the number of registers equal to 0. -/
def countZeros (e : HLLEstimator) : Nat :=
  e.registers.foldl (fun (zeros : Nat) (i : Nat) => if i = 0 then zeros + 1 else zeros) 0

/-- The method `LinearCount`:
`uint64(math.Floor(registerCount * math.Log(registerCount/float64(zeros))))`. -/
noncomputable def LinearCount (e : HLLEstimator) : Nat :=
  let zeros := countZeros e
  let registerCount : ℝ := ((1 <<< e.registerWidth) % 2 ^ 64 : Nat)
  uint64Floor (registerCount * Real.log (registerCount / (zeros : ℝ)))

/-- The raw estimate of `Count`:
`HLLConstant(registerCount) * float64(registerCount) * float64(registerCount)`
times `HarmonicMean(e.registers)`. -/
def estimate (e : HLLEstimator) : ℚ :=
  let registerCount : Nat := (1 <<< e.registerWidth) % 2 ^ 64
  let estimate := HLLConstant registerCount * (registerCount : ℚ) * (registerCount : ℚ)
  estimate * HarmonicMean e.registers

/-- The method `HLLEstimator.Count`; its last line is
`return uint64(math.Floor(estimate))`. -/
noncomputable def Count (e : HLLEstimator) : Nat :=
  let registerCount : Nat := (1 <<< e.registerWidth) % 2 ^ 64
  if estimate e < 5 / 2 * (registerCount : ℚ) then
    let zeros := countZeros e
    if zeros ≠ 0 then LinearCount e else uint64Floor (estimate e)
  else uint64Floor (estimate e)

/-- The number that `Count` converts to `uint64`: the bodies of `Count` and of
`LinearCount` without the final `uint64(math.Floor(...))`. -/
noncomputable def CountValue (e : HLLEstimator) : ℝ :=
  let registerCount : Nat := (1 <<< e.registerWidth) % 2 ^ 64
  if estimate e < 5 / 2 * (registerCount : ℚ) then
    let zeros := countZeros e
    if zeros ≠ 0 then (registerCount : ℝ) * Real.log ((registerCount : ℝ) / (zeros : ℝ))
    else ((estimate e : ℚ) : ℝ)
  else ((estimate e : ℚ) : ℝ)

/-- The states an estimator built by `NewHLL w` can be in: the fresh one, and
every state `Add` returns from such a state for a 64-bit key. -/
inductive Reachable (w : Nat) : HLLEstimator → Prop
  | fresh (e : HLLEstimator) : NewHLL w = some e → Reachable w e
  | add (e e1 : HLLEstimator) (key : Nat) :
      Reachable w e → key < 2 ^ 64 → Add e key = some e1 → Reachable w e1

/-- The rank of a key at width `w`, in the words of the specification: with
`remainder = (key << w) mod 2^64`, the rank is `64 - w + 1` when the remainder is 0
and `CountLeadingZeros(remainder) + 1` otherwise. -/
def keyRank (w key : Nat) : Option Nat :=
  if (key <<< w) % 2 ^ 64 = 0 then some (64 - w + 1)
  else (CountLeadingZeros ((key <<< w) % 2 ^ 64)).map (fun zeros => zeros + 1)

/-- The invariant of the estimators built by `NewHLL w`: the width is `w` and lies
in `[8, 20]`, there are `2 ^ w` registers, and no register exceeds `64 - w + 1`. -/
def Inv (w : Nat) (e : HLLEstimator) : Prop :=
  8 ≤ w ∧ w ≤ 20 ∧ e.registerWidth = w ∧ e.registers.length = 2 ^ w ∧
    ∀ x ∈ e.registers, x ≤ 64 - w + 1

/-- The raw estimate in the words of the specification, over the real numbers:
with `m = 2 ^ w` registers `r_i`, `E = (0.7213 / (1 + 1.079/m)) * m^2 * (1 / Σ 2^(-r_i))`. -/
noncomputable def rawEstimateSpec (w : Nat) (registers : List Nat) : ℝ :=
  (0.7213 / (1 + 1.079 / (2 : ℝ) ^ w)) * ((2 : ℝ) ^ w) ^ 2 *
    (1 / (registers.map (fun (r : Nat) => (2 : ℝ) ^ (-(r : ℤ)))).sum)

/-- The result of `Count` in the words of the specification: with `zeroCount` the
number of registers equal to 0, it is `floor(m * ln(m / zeroCount))` when
`E < 2.5 * m` and `zeroCount ≠ 0`, and `floor(E)` in every other case.  The floor
is the mathematical one, a natural number of any size. -/
noncomputable def CountSpec (w : Nat) (registers : List Nat) : Nat :=
  if rawEstimateSpec w registers < 2.5 * (2 : ℝ) ^ w ∧ registers.count 0 ≠ 0 then
    ⌊(2 : ℝ) ^ w * Real.log ((2 : ℝ) ^ w / (registers.count 0 : ℝ))⌋₊
  else ⌊rawEstimateSpec w registers⌋₊

/-! ## The exact estimator (`exact_estimator.go`) -/

/-- A Go `map[uint64]bool` as a list of key-value pairs with pairwise different
keys, in insertion order. -/
abbrev GoMap := List (Nat × Bool)

/-- The Go statement `m[key] = value`: the value of a key already present is
overwritten, a new key gets a new entry. -/
def GoMap.assign : GoMap → Nat → Bool → GoMap
  | [], key, value => [(key, value)]
  | (k, v) :: rest, key, value =>
    if k = key then (k, value) :: rest else (k, v) :: GoMap.assign rest key value

/-- The struct `ExactEstimator`. -/
structure ExactEstimator where
  values : GoMap
  deriving DecidableEq

/-- The function `NewExactEstimator`: an empty map. -/
def NewExactEstimator : ExactEstimator :=
  { values := [] }

/-- The method `ExactEstimator.Add`: `e.values[key] = true`. -/
def ExactEstimator.Add (e : ExactEstimator) (key : Nat) : ExactEstimator :=
  { values := e.values.assign key true }

/-- The method `ExactEstimator.Count`: `uint64(len(e.values))`; `len` is a
non-negative `int`, which the conversion leaves as it is. -/
def ExactEstimator.Count (e : ExactEstimator) : Nat :=
  e.values.length

/-- A sequence of `ExactEstimator.Add` calls, first key first. -/
def ExactEstimator.AddAll (e : ExactEstimator) (keys : List Nat) : ExactEstimator :=
  keys.foldl ExactEstimator.Add e

/-! ## Machine words -/

theorem shl64_lt (x n : Nat) : shl64 x n < 2 ^ 64 := by
  unfold shl64
  split
  · exact Nat.mod_lt _ (by positivity)
  · positivity

theorem shl64_one_of_lt {j : Nat} (hj : j < 2 ^ 63) : shl64 j 1 = 2 * j := by
  simp only [shl64, Nat.shiftLeft_eq]
  norm_num
  omega

theorem and_msb_eq_zero_iff {j : Nat} (hj : j < 2 ^ 64) :
    j &&& 0x8000000000000000 = 0 ↔ j < 2 ^ 63 := by
  have h : (0x8000000000000000 : Nat) = 2 ^ 63 := by norm_num
  rw [h, Nat.and_two_pow, Nat.testBit_to_div_mod]
  by_cases hlt : j < 2 ^ 63
  · have h0 : j / 2 ^ 63 = 0 := Nat.div_eq_of_lt hlt
    rw [h0]
    simp only [Nat.zero_mod, zero_ne_one, decide_False, Bool.toNat_false, zero_mul, true_iff]
    exact hlt
  · have h1 : j / 2 ^ 63 = 1 := by
      have : 1 ≤ j / 2 ^ 63 := by
        rw [Nat.le_div_iff_mul_le (by positivity)]
        omega
      have h2 : j / 2 ^ 63 < 2 := by
        rw [Nat.div_lt_iff_lt_mul (by positivity)]
        omega
      omega
    rw [h1]
    simp only [Nat.one_mod, decide_True, Bool.toNat_true, one_mul]
    constructor
    · intro h; exact absurd h (by positivity)
    · intro h; exact absurd h hlt

theorem log2_eq_of_bounds {n k : Nat} (h1 : 2 ^ k ≤ n) (h2 : n < 2 ^ (k + 1)) :
    Nat.log2 n = k := by
  have hn : n ≠ 0 := by
    have : 0 < 2 ^ k := by positivity
    omega
  have ha : k ≤ Nat.log2 n := (Nat.le_log2 hn).2 h1
  have hb : Nat.log2 n < k + 1 := (Nat.log2_lt hn).2 h2
  omega

theorem log2_double {j : Nat} (hj : j ≠ 0) : Nat.log2 (2 * j) = Nat.log2 j + 1 := by
  apply log2_eq_of_bounds
  · have := Nat.log2_self_le hj
    rw [pow_succ]
    omega
  · have := @Nat.lt_log2_self j
    rw [pow_succ (2 : Nat) (Nat.log2 j + 1)]
    omega

theorem log2_le_63 {j : Nat} (hj0 : j ≠ 0) (hj : j < 2 ^ 64) : Nat.log2 j ≤ 63 := by
  have := (Nat.log2_lt hj0).2 hj
  omega

/-! ## CountLeadingZeros -/

/-- The loop makes `63 - log2 j` iterations on a non-zero word `j`, and that many
iterations are enough for it to return. -/
theorem CountLeadingZerosLoop_eq (fuel : Nat) :
    ∀ j zeros : Nat, j ≠ 0 → j < 2 ^ 64 → 63 - Nat.log2 j ≤ fuel →
      zeros + (63 - Nat.log2 j) < 256 →
      CountLeadingZerosLoop fuel j zeros = some (zeros + (63 - Nat.log2 j)) := by
  induction fuel with
  | zero =>
    intro j zeros hj0 hj hfuel _
    have h63 : 63 ≤ Nat.log2 j := by omega
    have hge : 2 ^ 63 ≤ j := (Nat.le_log2 hj0).1 h63
    have hc : ¬ (j ≠ 0 ∧ j &&& 0x8000000000000000 = 0) := by
      rw [and_msb_eq_zero_iff hj]
      omega
    have hz : 63 - Nat.log2 j = 0 := by omega
    rw [CountLeadingZerosLoop, if_neg hc, hz, Nat.add_zero]
  | succ fuel ih =>
    intro j zeros hj0 hj hfuel hz
    by_cases hlt : j < 2 ^ 63
    · have hc : j ≠ 0 ∧ j &&& 0x8000000000000000 = 0 :=
        ⟨hj0, (and_msb_eq_zero_iff hj).2 hlt⟩
      have hlog : Nat.log2 j < 63 := (Nat.log2_lt hj0).2 hlt
      have hd := log2_double hj0
      rw [CountLeadingZerosLoop, if_pos hc, shl64_one_of_lt hlt]
      have hm : (zeros + 1) % 256 = zeros + 1 := Nat.mod_eq_of_lt (by omega)
      rw [hm, ih (2 * j) (zeros + 1) (by omega) (by omega) (by omega) (by omega), hd]
      congr 1
      omega
    · have hc : ¬ (j ≠ 0 ∧ j &&& 0x8000000000000000 = 0) := by
        rw [and_msb_eq_zero_iff hj]
        omega
      have h63 : 63 ≤ Nat.log2 j := (Nat.le_log2 hj0).2 (by omega)
      have hz : 63 - Nat.log2 j = 0 := by omega
      rw [CountLeadingZerosLoop, if_neg hc, hz, Nat.add_zero]

/-- `CountLeadingZeros` returns on every 64-bit word. -/
theorem CountLeadingZeros_eq {i : Nat} (hi : i < 2 ^ 64) :
    CountLeadingZeros i = some (if i = 0 then 64 else 63 - Nat.log2 i) := by
  unfold CountLeadingZeros
  by_cases h0 : i = 0
  · simp [h0]
  · rw [if_neg h0, if_neg h0, CountLeadingZerosLoop_eq 64 i 0 h0 hi (by omega) (by omega)]
    simp

theorem testBit_log2 {i : Nat} (h0 : i ≠ 0) : i.testBit (Nat.log2 i) = true := by
  rw [Nat.testBit_to_div_mod]
  have h1 := Nat.log2_self_le h0
  have h2 := @Nat.lt_log2_self i
  have ha : 1 ≤ i / 2 ^ Nat.log2 i := by
    rw [Nat.le_div_iff_mul_le (by positivity)]
    omega
  have hb : i / 2 ^ Nat.log2 i < 2 := by
    rw [Nat.div_lt_iff_lt_mul (by positivity), pow_succ] at *
    omega
  have : i / 2 ^ Nat.log2 i = 1 := by omega
  simp [this]

theorem testBit_above_log2 {i b : Nat} (hb : Nat.log2 i < b) : i.testBit b = false := by
  apply Nat.testBit_lt_two_pow
  have h2 := @Nat.lt_log2_self i
  exact lt_of_lt_of_le h2 (Nat.pow_le_pow_right (by norm_num) hb)

/-- C10. `CountLeadingZeros` is the leading-zero count of a 64-bit word: it returns
(the loop terminates, and any number of at least 63 allowed iterations gives the
same result), the result is 64 for the word 0 and `63 - floor(log2 w)` for a
non-zero word `w`; in the non-zero case bit `63 - result` of `w` is set, every
higher bit is clear, and the result is 0 exactly when the most significant bit
(bit 63) is set. -/
theorem CountLeadingZeros_is_leading_zero_count (w : Nat) (hw : w < 2 ^ 64) :
    CountLeadingZeros w = some (if w = 0 then 64 else 63 - Nat.log2 w) ∧
    (w ≠ 0 → ∀ c, CountLeadingZeros w = some c →
      c = 63 - Nat.log 2 w ∧ c ≤ 63 ∧
      w.testBit (63 - c) = true ∧
      (∀ b, 63 - c < b → w.testBit b = false) ∧
      (c = 0 ↔ w.testBit 63 = true) ∧
      (∀ fuel, 63 ≤ fuel → CountLeadingZerosLoop fuel w 0 = some c)) := by
  refine ⟨CountLeadingZeros_eq hw, ?_⟩
  intro h0 c hc
  rw [CountLeadingZeros_eq hw, if_neg h0] at hc
  have hc2 : c = 63 - Nat.log2 w := (Option.some.inj hc).symm
  have hl := log2_le_63 h0 hw
  have hsub : 63 - c = Nat.log2 w := by omega
  refine ⟨by rw [← Nat.log2_eq_log_two]; exact hc2, by omega, ?_, ?_, ?_, ?_⟩
  · rw [hsub]
    exact testBit_log2 h0
  · intro b hb
    exact testBit_above_log2 (by omega)
  · constructor
    · intro hz
      have : Nat.log2 w = 63 := by omega
      rw [← this]
      exact testBit_log2 h0
    · intro hbit
      by_contra hne
      have : Nat.log2 w < 63 := by omega
      rw [testBit_above_log2 this] at hbit
      exact Bool.false_ne_true hbit
  · intro fuel hfuel
    rw [CountLeadingZerosLoop_eq fuel w 0 h0 hw (by omega) (by omega), hc2]
    simp

/-- The theorem at the word `2 ^ 60`, which has three leading zeros. -/
theorem CountLeadingZeros_is_leading_zero_count_witness :
    (2 ^ 60 < 2 ^ 64) ∧
    CountLeadingZeros (2 ^ 60) = some (if 2 ^ 60 = 0 then 64 else 63 - Nat.log2 (2 ^ 60)) ∧
    ((2 ^ 60 : Nat) ≠ 0 → ∀ c, CountLeadingZeros (2 ^ 60) = some c →
      c = 63 - Nat.log 2 (2 ^ 60) ∧ c ≤ 63 ∧
      (2 ^ 60 : Nat).testBit (63 - c) = true ∧
      (∀ b, 63 - c < b → (2 ^ 60 : Nat).testBit b = false) ∧
      (c = 0 ↔ (2 ^ 60 : Nat).testBit 63 = true) ∧
      (∀ fuel, 63 ≤ fuel → CountLeadingZerosLoop fuel (2 ^ 60) 0 = some c)) :=
  ⟨by decide, CountLeadingZeros_is_leading_zero_count (2 ^ 60) (by decide)⟩

/-- The five cases of `TestCountLeadingZeros`. -/
theorem CountLeadingZeros_tests :
    CountLeadingZeros 0 = some 64 ∧ CountLeadingZeros 1 = some 63 ∧
    CountLeadingZeros (2 ^ 60) = some 3 ∧ CountLeadingZeros (2 ^ 31) = some 32 ∧
    CountLeadingZeros (2 ^ 63) = some 0 := by
  decide

/-! ## SplitWord64 and the rank of a key -/

theorem usub_64 {w : Nat} (hw : w ≤ 64) : usub 64 w = 64 - w := by
  unfold usub
  omega

theorem SplitWord64_eq {w : Nat} (key : Nat) (h8 : 8 ≤ w) (h20 : w ≤ 20) :
    SplitWord64 key w = (key >>> (64 - w), (key <<< w) % 2 ^ 64) := by
  have h1 : 64 - w < 64 := by omega
  have h2 : w < 64 := by omega
  simp only [SplitWord64, usub_64 (by omega : w ≤ 64), shr64, shl64, if_pos h1, if_pos h2]

theorem index_lt {w key : Nat} (hw : w ≤ 64) (hk : key < 2 ^ 64) :
    key >>> (64 - w) < 2 ^ w := by
  rw [Nat.shiftRight_eq_div_pow, Nat.div_lt_iff_lt_mul (by positivity), ← pow_add]
  have : w + (64 - w) = 64 := by omega
  rw [this]
  exact hk

theorem remainder_eq (w key : Nat) (hw : w ≤ 64) :
    (key <<< w) % 2 ^ 64 = 2 ^ w * (key % 2 ^ (64 - w)) := by
  have h : (2 : Nat) ^ 64 = 2 ^ w * 2 ^ (64 - w) := by
    rw [← pow_add]
    congr 1
    omega
  rw [Nat.shiftLeft_eq, h, Nat.mul_comm key, Nat.mul_mod_mul_left]

/-- The rank of a 64-bit key is defined and lies in `[1, 64 - w + 1]`. -/
theorem keyRank_bounds {w key : Nat} (h8 : 8 ≤ w) (h20 : w ≤ 20) :
    ∃ rank, keyRank w key = some rank ∧ 1 ≤ rank ∧ rank ≤ 64 - w + 1 ∧
      ((key <<< w) % 2 ^ 64 ≠ 0 → rank ≤ 64 - w) := by
  unfold keyRank
  by_cases h0 : (key <<< w) % 2 ^ 64 = 0
  · exact ⟨64 - w + 1, by rw [if_pos h0], by omega, le_refl _, fun h => absurd h0 h⟩
  · have hlt : (key <<< w) % 2 ^ 64 < 2 ^ 64 := Nat.mod_lt _ (by positivity)
    have hge : 2 ^ w ≤ (key <<< w) % 2 ^ 64 := by
      rw [remainder_eq w key (by omega)] at h0 ⊢
      have : key % 2 ^ (64 - w) ≠ 0 := fun hz => h0 (by rw [hz, Nat.mul_zero])
      exact Nat.le_mul_of_pos_right _ (Nat.pos_of_ne_zero this)
    have hlog : w ≤ Nat.log2 ((key <<< w) % 2 ^ 64) := (Nat.le_log2 h0).2 hge
    have hlog2 := log2_le_63 h0 hlt
    refine ⟨63 - Nat.log2 ((key <<< w) % 2 ^ 64) + 1, ?_, by omega, by omega, fun _ => by omega⟩
    rw [if_neg h0, CountLeadingZeros_eq hlt, if_neg h0]
    rfl

/-! ## Add -/

theorem set_max_of_le {l : List Nat} {i old rank : Nat} (hold : l[i]? = some old)
    (hle : rank ≤ old) : l.set i (max old rank) = l := by
  rw [max_eq_left hle]
  apply List.ext_getElem?
  intro j
  rw [List.getElem?_set]
  by_cases hij : i = j
  · subst hij
    have hlt : i < l.length := by
      by_contra hge
      rw [List.getElem?_eq_none (by omega)] at hold
      exact Option.noConfusion hold
    rw [if_pos rfl, if_pos hlt, hold]
  · rw [if_neg hij]

/-- What `Add` does on a state of the right shape: it returns, and the state after
is the state before with the register of the key set to the larger of its old
value and the rank of the key. -/
theorem Add_eq (e : HLLEstimator) (key : Nat) (h8 : 8 ≤ e.registerWidth)
    (h20 : e.registerWidth ≤ 20) (hlen : e.registers.length = 2 ^ e.registerWidth)
    (hk : key < 2 ^ 64) :
    ∃ rank old, keyRank e.registerWidth key = some rank ∧
      e.registers[key >>> (64 - e.registerWidth)]? = some old ∧
      Add e key = some { registerWidth := e.registerWidth,
                         registers := e.registers.set (key >>> (64 - e.registerWidth))
                           (max old rank) } := by
  obtain ⟨rank, hrank, h1, hle, _⟩ := @keyRank_bounds e.registerWidth key h8 h20
  have hidx : key >>> (64 - e.registerWidth) < e.registers.length := by
    rw [hlen]
    exact index_lt (by omega) hk
  refine ⟨rank, e.registers[key >>> (64 - e.registerWidth)], hrank,
    List.getElem?_eq_getElem hidx, ?_⟩
  have hlt : (key <<< e.registerWidth) % 2 ^ 64 < 2 ^ 64 := Nat.mod_lt _ (by positivity)
  have hclz := CountLeadingZeros_eq hlt
  have hcount : (if (key <<< e.registerWidth) % 2 ^ 64 = 0
      then ((usub 64 e.registerWidth + 1) % 2 ^ 64) % 256
      else ((if (key <<< e.registerWidth) % 2 ^ 64 = 0 then 64
        else 63 - Nat.log2 ((key <<< e.registerWidth) % 2 ^ 64)) + 1) % 256) = rank := by
    unfold keyRank at hrank
    by_cases h0 : (key <<< e.registerWidth) % 2 ^ 64 = 0
    · rw [if_pos h0] at hrank ⊢
      rw [usub_64 (by omega), ← Option.some.inj hrank]
      omega
    · rw [if_neg h0, hclz, if_neg h0] at hrank
      rw [if_neg h0, if_neg h0]
      have hr : 63 - Nat.log2 ((key <<< e.registerWidth) % 2 ^ 64) + 1 = rank :=
        Option.some.inj hrank
      rw [hr]
      exact Nat.mod_eq_of_lt (by omega)
  simp only [Add, SplitWord64_eq key h8 h20, hclz, List.getElem?_eq_getElem hidx, hcount]
  by_cases hgt : rank > e.registers[key >>> (64 - e.registerWidth)]
  · rw [if_pos hgt, max_eq_right (le_of_lt hgt)]
  · rw [if_neg hgt, set_max_of_le (List.getElem?_eq_getElem hidx) (by omega)]

/-- C1. The update rule of `Add`: on a state with `registerWidth = w` in `[8, 20]`
and `2 ^ w` registers, and a 64-bit key `k`, with `index = k >> (64 - w)`,
`remainder = (k << w) mod 2^64` and `rank = 64 - w + 1` if the remainder is 0 and
`CountLeadingZeros(remainder) + 1` otherwise, `Add` returns the old state with
`registers[index]` replaced by `max(old registers[index], rank)`; the register
count, `registerWidth` and every other register are unchanged. -/
theorem Add_update_rule (e : HLLEstimator) (k : Nat) (h8 : 8 ≤ e.registerWidth)
    (h20 : e.registerWidth ≤ 20) (hlen : e.registers.length = 2 ^ e.registerWidth)
    (hk : k < 2 ^ 64) :
    ∃ zeros old e1,
      CountLeadingZeros ((k <<< e.registerWidth) % 2 ^ 64) = some zeros ∧
      e.registers[k >>> (64 - e.registerWidth)]? = some old ∧
      Add e k = some e1 ∧
      e1 = { registerWidth := e.registerWidth,
             registers := e.registers.set (k >>> (64 - e.registerWidth))
               (max old (if (k <<< e.registerWidth) % 2 ^ 64 = 0
                 then 64 - e.registerWidth + 1 else zeros + 1)) } ∧
      e1.registerWidth = e.registerWidth ∧
      e1.registers.length = e.registers.length ∧
      e1.registers[k >>> (64 - e.registerWidth)]? =
        some (max old (if (k <<< e.registerWidth) % 2 ^ 64 = 0
                 then 64 - e.registerWidth + 1 else zeros + 1)) ∧
      ∀ i, i ≠ k >>> (64 - e.registerWidth) → e1.registers[i]? = e.registers[i]? := by
  obtain ⟨rank, old, hrank, hold, hadd⟩ := Add_eq e k h8 h20 hlen hk
  have hlt : (k <<< e.registerWidth) % 2 ^ 64 < 2 ^ 64 := Nat.mod_lt _ (by positivity)
  have hclz := CountLeadingZeros_eq hlt
  have hidx : k >>> (64 - e.registerWidth) < e.registers.length := by
    rw [hlen]
    exact index_lt (by omega) hk
  have hr : (if (k <<< e.registerWidth) % 2 ^ 64 = 0 then 64 - e.registerWidth + 1
      else (if (k <<< e.registerWidth) % 2 ^ 64 = 0 then 64
        else 63 - Nat.log2 ((k <<< e.registerWidth) % 2 ^ 64)) + 1) = rank := by
    unfold keyRank at hrank
    by_cases h0 : (k <<< e.registerWidth) % 2 ^ 64 = 0
    · rw [if_pos h0] at hrank ⊢
      exact Option.some.inj hrank
    · rw [if_neg h0, hclz, if_neg h0] at hrank
      rw [if_neg h0, if_neg h0]
      exact Option.some.inj hrank
  refine ⟨_, old, _, hclz, hold, hadd, ?_, rfl, ?_, ?_, ?_⟩
  · rw [hr]
  · simp
  · rw [hr]
    simp [List.getElem?_set, hidx]
  · intro i hi
    simp only [List.getElem?_set]
    rw [if_neg (Ne.symm hi)]

/-- The update rule at the all-zero key on the fresh width-8 estimator. -/
theorem Add_update_rule_witness :
    (8 ≤ 8 ∧ 8 ≤ 20 ∧ (List.replicate 256 0).length = 2 ^ 8 ∧ 0 < 2 ^ 64) ∧
    ∃ zeros old e1,
      CountLeadingZeros ((0 <<< 8) % 2 ^ 64) = some zeros ∧
      (List.replicate 256 0)[0 >>> (64 - 8)]? = some old ∧
      Add ⟨8, List.replicate 256 0⟩ 0 = some e1 ∧
      e1 = { registerWidth := 8,
             registers := (List.replicate 256 0).set (0 >>> (64 - 8))
               (max old (if (0 <<< 8) % 2 ^ 64 = 0 then 64 - 8 + 1 else zeros + 1)) } ∧
      e1.registerWidth = 8 ∧
      e1.registers.length = (List.replicate 256 0).length ∧
      e1.registers[0 >>> (64 - 8)]? =
        some (max old (if (0 <<< 8) % 2 ^ 64 = 0 then 64 - 8 + 1 else zeros + 1)) ∧
      ∀ i, i ≠ 0 >>> (64 - 8) → e1.registers[i]? = (List.replicate 256 0)[i]? :=
  ⟨⟨by decide, by decide, List.length_replicate 256 0, by decide⟩,
    Add_update_rule ⟨8, List.replicate 256 0⟩ 0 (by decide) (by decide)
      (List.length_replicate 256 0) (by decide)⟩

/-! ## NewHLL -/

theorem NewHLL_eq {w : Nat} (h8 : 8 ≤ w) (h20 : w ≤ 20) :
    NewHLL w = some { registerWidth := w, registers := List.replicate (2 ^ w) 0 } := by
  have hc : ¬ (w < 8 ∨ w > 20) := by omega
  simp only [NewHLL, if_neg hc, Nat.shiftLeft_eq, Nat.one_mul]

/-- C4. The construction contract of `NewHLL`: it fails exactly when the width is
below 8 or above 20; for a width `w` in `[8, 20]` it returns an estimator whose
`registerWidth` is `w` and whose register array has `2 ^ w` entries, all 0.  Widths
4, 7 and 21 fail, widths 8 and 20 succeed. -/
theorem NewHLL_contract (w : Nat) :
    (NewHLL w = none ↔ w < 8 ∨ w > 20) ∧
    (8 ≤ w → w ≤ 20 → ∃ e, NewHLL w = some e ∧ e.registerWidth = w ∧
      e.registers.length = 2 ^ w ∧ ∀ x ∈ e.registers, x = 0) ∧
    NewHLL 4 = none ∧ NewHLL 7 = none ∧ NewHLL 21 = none ∧
    (NewHLL 8).isSome = true ∧ (NewHLL 20).isSome = true := by
  refine ⟨?_, ?_, by decide, by decide, by decide, by decide, by decide⟩
  · constructor
    · intro h
      by_contra hc
      have h8 : 8 ≤ w := by omega
      have h20 : w ≤ 20 := by omega
      rw [NewHLL_eq h8 h20] at h
      exact Option.noConfusion h
    · intro h
      simp only [NewHLL, if_pos h]
  · intro h8 h20
    refine ⟨_, NewHLL_eq h8 h20, rfl, List.length_replicate _ _, ?_⟩
    intro x hx
    exact List.eq_of_mem_replicate hx

/-- The construction contract at width 8. -/
theorem NewHLL_contract_witness :
    (8 ≤ 8 ∧ 8 ≤ 20) ∧ ∃ e, NewHLL 8 = some e ∧ e.registerWidth = 8 ∧
      e.registers.length = 2 ^ 8 ∧ ∀ x ∈ e.registers, x = 0 :=
  ⟨⟨by decide, by decide⟩, (NewHLL_contract 8).2.1 (by decide) (by decide)⟩

/-! ## The invariant of the reachable states -/

theorem NewHLL_inv {w : Nat} {e : HLLEstimator} (h : NewHLL w = some e) : Inv w e := by
  have hc : ¬ (w < 8 ∨ w > 20) := by
    intro hc
    simp only [NewHLL, if_pos hc] at h
    exact Option.noConfusion h
  have h8 : 8 ≤ w := by omega
  have h20 : w ≤ 20 := by omega
  rw [NewHLL_eq h8 h20] at h
  have he := Option.some.inj h
  subst he
  refine ⟨h8, h20, rfl, List.length_replicate _ _, ?_⟩
  intro x hx
  rw [List.eq_of_mem_replicate hx]
  exact Nat.zero_le _

theorem Add_inv {w : Nat} {e e1 : HLLEstimator} {key : Nat} (hinv : Inv w e)
    (hk : key < 2 ^ 64) (h : Add e key = some e1) : Inv w e1 := by
  obtain ⟨h8, h20, hw, hlen, hreg⟩ := hinv
  subst hw
  obtain ⟨rank, old, hrank, hold, hadd⟩ := Add_eq e key h8 h20 hlen hk
  obtain ⟨r2, hr2, _, hle, _⟩ := @keyRank_bounds e.registerWidth key h8 h20
  rw [hrank] at hr2
  have hr := Option.some.inj hr2
  subst hr
  rw [hadd] at h
  have he := Option.some.inj h
  subst he
  refine ⟨h8, h20, rfl, by simpa using hlen, ?_⟩
  intro x hx
  have hsub := List.mem_or_eq_of_mem_set hx
  rcases hsub with hmem | heq
  · exact hreg x hmem
  · rw [heq]
    have hold_le : old ≤ 64 - e.registerWidth + 1 := by
      obtain ⟨hi, hget⟩ := List.getElem?_eq_some.1 hold
      rw [← hget]
      exact hreg _ (List.getElem_mem hi)
    exact max_le hold_le hle

theorem Reachable_inv {w : Nat} {e : HLLEstimator} (h : Reachable w e) : Inv w e := by
  induction h with
  | fresh e h => exact NewHLL_inv h
  | add e e1 key _ hk hadd ih => exact Add_inv ih hk hadd

theorem AddAll_inv {w : Nat} (keys : List Nat) :
    ∀ e : HLLEstimator, Inv w e → (∀ k ∈ keys, k < 2 ^ 64) →
      ∃ e1, AddAll e keys = some e1 ∧ Inv w e1 := by
  induction keys with
  | nil =>
    intro e hinv _
    exact ⟨e, rfl, hinv⟩
  | cons key keys ih =>
    intro e hinv hkeys
    have hk : key < 2 ^ 64 := hkeys key (List.mem_cons_self _ _)
    obtain ⟨h8, h20, hw, hlen, _⟩ := id hinv
    obtain ⟨rank, old, _, _, hadd⟩ := Add_eq e key (hw ▸ h8) (hw ▸ h20) (hw ▸ hlen) hk
    obtain ⟨e2, h2, hinv2⟩ := ih _ (Add_inv hinv hk hadd)
      (fun k hmem => hkeys k (List.mem_cons_of_mem _ hmem))
    refine ⟨e2, ?_, hinv2⟩
    simp only [AddAll, hadd, h2]

theorem AddAll_reachable {w : Nat} (keys : List Nat) :
    ∀ e e1 : HLLEstimator, Reachable w e → (∀ k ∈ keys, k < 2 ^ 64) →
      AddAll e keys = some e1 → Reachable w e1 := by
  induction keys with
  | nil =>
    intro e e1 hr _ h
    simp only [AddAll] at h
    exact Option.some.inj h ▸ hr
  | cons key keys ih =>
    intro e e1 hr hkeys h
    have hk : key < 2 ^ 64 := hkeys key (List.mem_cons_self _ _)
    simp only [AddAll] at h
    cases hadd : Add e key with
    | none =>
      rw [hadd] at h
      exact Option.noConfusion h
    | some e2 =>
      rw [hadd] at h
      exact ih e2 e1 (Reachable.add e e2 key hr hk hadd)
        (fun k hmem => hkeys k (List.mem_cons_of_mem _ hmem)) h

/-! ## Monotonicity of the registers -/

/-- Whenever `Add` returns, on any state at all, it either leaves the state as it
is or writes a strictly larger value into one register. -/
theorem Add_cases {e e1 : HLLEstimator} {key : Nat} (h : Add e key = some e1) :
    ∃ register count current, e.registers[register]? = some current ∧
      ((count ≤ current ∧ e1 = e) ∨
       (current < count ∧ e1 = { registerWidth := e.registerWidth,
                                 registers := e.registers.set register count })) := by
  simp only [Add] at h
  cases hz : CountLeadingZeros (SplitWord64 key e.registerWidth).2 with
  | none =>
    rw [hz] at h
    exact Option.noConfusion h
  | some zeros =>
    rw [hz] at h
    cases hc : e.registers[(SplitWord64 key e.registerWidth).1]? with
    | none =>
      rw [hc] at h
      exact Option.noConfusion h
    | some current =>
      rw [hc] at h
      simp only at h
      generalize (if (SplitWord64 key e.registerWidth).2 = 0
        then (usub 64 e.registerWidth + 1) % 2 ^ 64 % 256 else (zeros + 1) % 256) = count at h
      by_cases hgt : count > current
      · rw [if_pos hgt] at h
        exact ⟨_, count, current, hc, Or.inr ⟨hgt, (Option.some.inj h).symm⟩⟩
      · rw [if_neg hgt] at h
        exact ⟨_, count, current, hc, Or.inl ⟨not_lt.1 hgt, (Option.some.inj h).symm⟩⟩

theorem Add_mono {e e1 : HLLEstimator} {key : Nat} (h : Add e key = some e1) :
    e1.registerWidth = e.registerWidth ∧ e1.registers.length = e.registers.length ∧
    ∀ (i a : Nat), e.registers[i]? = some a → ∃ b, e1.registers[i]? = some b ∧ a ≤ b := by
  obtain ⟨register, count, current, hcur, hcase⟩ := Add_cases h
  rcases hcase with ⟨_, he⟩ | ⟨hlt, he⟩
  · subst he
    exact ⟨rfl, rfl, fun i a ha => ⟨a, ha, le_refl a⟩⟩
  · subst he
    refine ⟨rfl, by simp, ?_⟩
    intro i a ha
    have hi : register < e.registers.length := (List.getElem?_eq_some.1 hcur).1
    by_cases hri : register = i
    · subst hri
      rw [hcur] at ha
      have : current = a := Option.some.inj ha
      subst this
      exact ⟨count, by simp [List.getElem?_set, hi], le_of_lt hlt⟩
    · exact ⟨a, by simp only [List.getElem?_set, if_neg hri, ha], le_refl a⟩

theorem AddAll_mono (keys : List Nat) :
    ∀ e e1 : HLLEstimator, AddAll e keys = some e1 →
      e1.registerWidth = e.registerWidth ∧ e1.registers.length = e.registers.length ∧
      ∀ (i a : Nat), e.registers[i]? = some a → ∃ b, e1.registers[i]? = some b ∧ a ≤ b := by
  induction keys with
  | nil =>
    intro e e1 h
    simp only [AddAll] at h
    have he := Option.some.inj h
    subst he
    exact ⟨rfl, rfl, fun i a ha => ⟨a, ha, le_refl a⟩⟩
  | cons key keys ih =>
    intro e e1 h
    simp only [AddAll] at h
    cases hadd : Add e key with
    | none =>
      rw [hadd] at h
      exact Option.noConfusion h
    | some e2 =>
      rw [hadd] at h
      obtain ⟨hw1, hl1, hm1⟩ := Add_mono hadd
      obtain ⟨hw2, hl2, hm2⟩ := ih e2 e1 h
      refine ⟨hw2.trans hw1, hl2.trans hl1, ?_⟩
      intro i a ha
      obtain ⟨b, hb, hab⟩ := hm1 i a ha
      obtain ⟨c, hc, hbc⟩ := hm2 i b hb
      exact ⟨c, hc, le_trans hab hbc⟩

/-- C5. Register monotonicity.  For every estimator state `e`: whenever `Add`
returns, every register of the state after is at least its value before, and the
register count is unchanged; the same holds from the state before to the state
after any sequence of `Add` calls.  On the states of an estimator built by `NewHLL`
(the invariant `Inv`), every sequence of `Add` calls with 64-bit keys does return. -/
theorem Add_registers_nondecreasing (e : HLLEstimator) :
    (∀ key e1, Add e key = some e1 →
      e1.registers.length = e.registers.length ∧
      ∀ (i a : Nat), e.registers[i]? = some a → ∃ b, e1.registers[i]? = some b ∧ a ≤ b) ∧
    (∀ keys e1, AddAll e keys = some e1 →
      e1.registers.length = e.registers.length ∧
      ∀ (i a : Nat), e.registers[i]? = some a → ∃ b, e1.registers[i]? = some b ∧ a ≤ b) ∧
    (∀ w, Inv w e → ∀ keys, (∀ k ∈ keys, k < 2 ^ 64) → ∃ e1, AddAll e keys = some e1) := by
  refine ⟨fun key e1 h => (Add_mono h).2, fun keys e1 h => (AddAll_mono keys e e1 h).2, ?_⟩
  intro w hinv keys hkeys
  obtain ⟨e1, h1, _⟩ := AddAll_inv keys e hinv hkeys
  exact ⟨e1, h1⟩

set_option maxRecDepth 8000 in
/-- Monotonicity at the fresh width-8 estimator and the keys `2 ^ 63`, `2 ^ 62`:
both calls return and no register has decreased. -/
theorem Add_registers_nondecreasing_witness :
    ∃ e1, AddAll ⟨8, List.replicate 256 0⟩ [2 ^ 63, 2 ^ 62] = some e1 ∧
      e1.registers.length = (List.replicate 256 0).length ∧
      ∀ (i a : Nat), (List.replicate 256 0)[i]? = some a → ∃ b, e1.registers[i]? = some b ∧ a ≤ b :=
  have h : AddAll ⟨8, List.replicate 256 0⟩ [2 ^ 63, 2 ^ 62] =
      some ⟨8, ((List.replicate 256 0).set 128 57).set 64 57⟩ := by rfl
  ⟨_, h, (Add_registers_nondecreasing ⟨8, List.replicate 256 0⟩).2.1 [2 ^ 63, 2 ^ 62] _ h⟩

/-! ## The zero-remainder clamp -/

/-- C8. The zero-remainder clamp: for a width `w` in `[8, 20]`, a state reachable
from `NewHLL w` by `Add` calls and a 64-bit key `k` whose low `64 - w` bits are all
zero, the remainder `k << w` is 0, `Add` returns, and afterwards the register at
index `k >> (64 - w)` is exactly `64 - w + 1` (which is less than 65). -/
theorem zero_remainder_clamp (w : Nat) (e : HLLEstimator) (k : Nat)
    (h8 : 8 ≤ w) (h20 : w ≤ 20) (hr : Reachable w e) (hk : k < 2 ^ 64)
    (hlow : k % 2 ^ (64 - w) = 0) :
    (k <<< w) % 2 ^ 64 = 0 ∧
    ∃ e1, Add e k = some e1 ∧ e1.registers[k >>> (64 - w)]? = some (64 - w + 1) ∧
      64 - w + 1 ≠ 65 := by
  obtain ⟨_, _, hw, hlen, hreg⟩ := Reachable_inv hr
  subst hw
  have hrem : (k <<< e.registerWidth) % 2 ^ 64 = 0 := by
    rw [remainder_eq e.registerWidth k (by omega), hlow, Nat.mul_zero]
  obtain ⟨rank, old, hrank, hold, hadd⟩ := Add_eq e k h8 h20 hlen hk
  have hrk : rank = 64 - e.registerWidth + 1 := by
    unfold keyRank at hrank
    rw [if_pos hrem] at hrank
    exact (Option.some.inj hrank).symm
  obtain ⟨hi, hget⟩ := List.getElem?_eq_some.1 hold
  have hold_le : old ≤ 64 - e.registerWidth + 1 := by
    rw [← hget]
    exact hreg _ (List.getElem_mem hi)
  subst hrk
  refine ⟨hrem, _, hadd, ?_, by omega⟩
  rw [max_eq_right hold_le]
  simp [List.getElem?_set, hi]

/-- The clamp on the fresh width-8 estimator and the key 0: the register at index 0
becomes 57. -/
theorem zero_remainder_clamp_witness :
    (0 <<< 8) % 2 ^ 64 = 0 ∧
    ∃ e1, Add ⟨8, List.replicate (1 <<< 8) 0⟩ 0 = some e1 ∧
      e1.registers[0 >>> (64 - 8)]? = some (64 - 8 + 1) ∧ 64 - 8 + 1 ≠ 65 :=
  zero_remainder_clamp 8 ⟨8, List.replicate (1 <<< 8) 0⟩ 0 (by decide) (by decide)
    (Reachable.fresh _ rfl) (by decide) (by decide)

/-! ## The meaning of a register -/

/-- After a sequence of `Add` calls from a state of an estimator of width `w`,
every register holds the larger of its old value and the ranks of the added keys
that fall on it. -/
theorem AddAll_registers {w : Nat} (keys : List Nat) :
    ∀ e : HLLEstimator, Inv w e → (∀ k ∈ keys, k < 2 ^ 64) →
      ∃ e1, AddAll e keys = some e1 ∧ Inv w e1 ∧
        ∀ i, i < 2 ^ w → ∃ v0 v, e.registers[i]? = some v0 ∧ e1.registers[i]? = some v ∧
          (∀ k ∈ keys, k >>> (64 - w) = i → ∃ r, keyRank w k = some r ∧ r ≤ v) ∧
          (v = v0 ∨ ∃ k ∈ keys, k >>> (64 - w) = i ∧ keyRank w k = some v) := by
  induction keys with
  | nil =>
    intro e hinv _
    refine ⟨e, rfl, hinv, ?_⟩
    intro i hi
    have hlt : i < e.registers.length := by rw [hinv.2.2.2.1]; exact hi
    refine ⟨e.registers[i], e.registers[i], List.getElem?_eq_getElem hlt,
      List.getElem?_eq_getElem hlt, ?_, Or.inl rfl⟩
    intro k hk
    exact absurd hk (List.not_mem_nil k)
  | cons key keys ih =>
    intro e hinv hkeys
    have hk : key < 2 ^ 64 := hkeys key (List.mem_cons_self _ _)
    obtain ⟨h8, h20, hw, hlen, _⟩ := id hinv
    subst hw
    obtain ⟨rank, old, hrank, hold, hadd⟩ := Add_eq e key h8 h20 hlen hk
    have hinv2 := Add_inv hinv hk hadd
    obtain ⟨e1, hall, hinv1, hreg⟩ := ih _ hinv2
      (fun k hmem => hkeys k (List.mem_cons_of_mem _ hmem))
    refine ⟨e1, by simp only [AddAll, hadd, hall], hinv1, ?_⟩
    intro i hi
    obtain ⟨v1, v, hv1, hv, hall_le, hor⟩ := hreg i hi
    have hlt : i < e.registers.length := by rw [hlen]; exact hi
    obtain ⟨_, _, hmono⟩ := AddAll_mono keys _ e1 hall
    obtain ⟨v', hv', hle'⟩ := hmono i v1 hv1
    rw [hv] at hv'
    have hvv : v = v' := Option.some.inj hv'
    subst hvv
    refine ⟨e.registers[i], v, List.getElem?_eq_getElem hlt, hv, ?_, ?_⟩
    · intro k hkmem hki
      rcases List.mem_cons.1 hkmem with heq | hmem
      · subst heq
        subst hki
        refine ⟨rank, hrank, ?_⟩
        have : v1 = max old rank := by
          simp only [List.getElem?_set, if_pos rfl, if_pos hlt] at hv1
          exact (Option.some.inj hv1).symm
        rw [this] at hle'
        exact le_trans (le_max_right _ _) hle'
      · exact hall_le k hmem hki
    · rcases hor with heq | ⟨k, hmem, hki, hkr⟩
      · by_cases hidx : key >>> (64 - e.registerWidth) = i
        · subst hidx
          have hv1' : v1 = max old rank := by
            simp only [List.getElem?_set, if_pos rfl, if_pos hlt] at hv1
            exact (Option.some.inj hv1).symm
          have hold' : e.registers[key >>> (64 - e.registerWidth)] = old := by
            have := List.getElem?_eq_getElem hlt
            rw [hold] at this
            exact (Option.some.inj this).symm
          by_cases hro : rank ≤ old
          · left
            rw [heq, hv1', max_eq_left hro, hold']
          · right
            refine ⟨key, List.mem_cons_self _ _, rfl, ?_⟩
            rw [heq, hv1', max_eq_right (by omega)]
            exact hrank
        · left
          simp only [List.getElem?_set, if_neg hidx] at hv1
          rw [List.getElem?_eq_getElem hlt] at hv1
          rw [heq]
          exact (Option.some.inj hv1).symm
      · exact Or.inr ⟨k, List.mem_cons_of_mem _ hmem, hki, hkr⟩

/-- C3. The meaning of a register: for a width `w` in `[8, 20]` and a finite
sequence of 64-bit keys added to a fresh `NewHLL(w)`, all the `Add` calls return,
and for every index `i < 2 ^ w` the register `i` holds a value `v` which is at
least the rank of every added key whose top `w` bits equal `i`, and which is the
rank of one such key when there is one, and 0 when there is none: `v` is the
maximum rank over those keys. -/
theorem register_is_max_rank (w : Nat) (keys : List Nat) (h8 : 8 ≤ w) (h20 : w ≤ 20)
    (hkeys : ∀ k ∈ keys, k < 2 ^ 64) :
    ∃ e0 e, NewHLL w = some e0 ∧ AddAll e0 keys = some e ∧
      e.registers.length = 2 ^ w ∧
      ∀ i, i < 2 ^ w → ∃ v, e.registers[i]? = some v ∧
        (∀ k ∈ keys, k >>> (64 - w) = i → ∃ r, keyRank w k = some r ∧ r ≤ v) ∧
        ((∃ k ∈ keys, k >>> (64 - w) = i ∧ keyRank w k = some v) ∨
         ((∀ k ∈ keys, k >>> (64 - w) ≠ i) ∧ v = 0)) := by
  have hnew := @NewHLL_eq w h8 h20
  obtain ⟨e, hall, hinv, hreg⟩ := AddAll_registers keys _ (NewHLL_inv hnew) hkeys
  refine ⟨_, e, hnew, hall, hinv.2.2.2.1, ?_⟩
  intro i hi
  obtain ⟨v0, v, hv0, hv, hle, hor⟩ := hreg i hi
  have hz : v0 = 0 := by
    simp only [List.getElem?_replicate, if_pos hi] at hv0
    exact (Option.some.inj hv0).symm
  refine ⟨v, hv, hle, ?_⟩
  rcases hor with heq | hex
  · by_cases hany : ∃ k ∈ keys, k >>> (64 - w) = i
    · obtain ⟨k, hmem, hki⟩ := hany
      obtain ⟨r, hr, hrv⟩ := hle k hmem hki
      obtain ⟨r2, hr2, hpos, _, _⟩ := @keyRank_bounds w k h8 h20
      rw [hr] at hr2
      have : r = r2 := Option.some.inj hr2
      omega
    · right
      refine ⟨?_, by rw [heq, hz]⟩
      intro k hmem hki
      exact hany ⟨k, hmem, hki⟩
  · exact Or.inl hex

/-- The meaning of a register at width 8 and the keys `2 ^ 63`, `2 ^ 62 + 2 ^ 40`
and `2 ^ 62 + 2 ^ 50`. -/
theorem register_is_max_rank_witness :
    (8 ≤ 8 ∧ 8 ≤ 20 ∧ ∀ k ∈ [2 ^ 63, 2 ^ 62 + 2 ^ 40, 2 ^ 62 + 2 ^ 50], k < 2 ^ 64) ∧
    ∃ e0 e, NewHLL 8 = some e0 ∧
      AddAll e0 [2 ^ 63, 2 ^ 62 + 2 ^ 40, 2 ^ 62 + 2 ^ 50] = some e ∧
      e.registers.length = 2 ^ 8 ∧
      ∀ i, i < 2 ^ 8 → ∃ v, e.registers[i]? = some v ∧
        (∀ k ∈ [2 ^ 63, 2 ^ 62 + 2 ^ 40, 2 ^ 62 + 2 ^ 50],
          k >>> (64 - 8) = i → ∃ r, keyRank 8 k = some r ∧ r ≤ v) ∧
        ((∃ k ∈ [2 ^ 63, 2 ^ 62 + 2 ^ 40, 2 ^ 62 + 2 ^ 50],
          k >>> (64 - 8) = i ∧ keyRank 8 k = some v) ∨
         ((∀ k ∈ [2 ^ 63, 2 ^ 62 + 2 ^ 40, 2 ^ 62 + 2 ^ 50], k >>> (64 - 8) ≠ i) ∧ v = 0)) :=
  ⟨⟨by decide, by decide, by decide⟩,
    register_is_max_rank 8 [2 ^ 63, 2 ^ 62 + 2 ^ 40, 2 ^ 62 + 2 ^ 50] (by decide) (by decide)
      (by decide)⟩

/-! ## The exact estimator -/

theorem GoMap.keys_assign (m : GoMap) (key : Nat) (value : Bool) :
    (GoMap.assign m key value).map Prod.fst =
      if key ∈ m.map Prod.fst then m.map Prod.fst else m.map Prod.fst ++ [key] := by
  induction m with
  | nil => simp [GoMap.assign]
  | cons p rest ih =>
    obtain ⟨k, v⟩ := p
    by_cases hk : k = key
    · subst hk
      simp [GoMap.assign]
    · have hk2 : ¬ key = k := fun h => hk h.symm
      simp only [GoMap.assign, if_neg hk, List.map_cons, ih, List.mem_cons, hk2, false_or]
      by_cases hmem : key ∈ List.map Prod.fst rest
      · simp only [if_pos hmem]
      · simp only [if_neg hmem, List.cons_append]

/-- The keys of the map of an exact estimator stay pairwise different, and after a
sequence of `Add` calls they are the keys before together with the added keys. -/
theorem ExactEstimator.AddAll_keys (keys : List Nat) :
    ∀ e : ExactEstimator, (e.values.map Prod.fst).Nodup →
      ((e.AddAll keys).values.map Prod.fst).Nodup ∧
      ((e.AddAll keys).values.map Prod.fst).toFinset =
        (e.values.map Prod.fst).toFinset ∪ keys.toFinset := by
  induction keys with
  | nil =>
    intro e hnd
    simp [ExactEstimator.AddAll, hnd]
  | cons key keys ih =>
    intro e hnd
    have hstep : ((e.Add key).values.map Prod.fst).Nodup ∧
        ((e.Add key).values.map Prod.fst).toFinset =
          insert key (e.values.map Prod.fst).toFinset := by
      simp only [ExactEstimator.Add, GoMap.keys_assign]
      by_cases hmem : key ∈ List.map Prod.fst e.values
      · simp only [if_pos hmem]
        refine ⟨hnd, ?_⟩
        rw [Finset.insert_eq_of_mem (List.mem_toFinset.2 hmem)]
      · simp only [if_neg hmem]
        refine ⟨?_, ?_⟩
        · rw [List.nodup_append]
          refine ⟨hnd, List.nodup_singleton _, ?_⟩
          intro x hx hx2
          rw [List.mem_singleton] at hx2
          exact hmem (hx2 ▸ hx)
        · ext x
          simp only [List.toFinset_append, List.toFinset_cons, List.toFinset_nil,
            Finset.mem_union, Finset.mem_insert, List.mem_toFinset, Finset.mem_singleton,
            insert_emptyc_eq]
          tauto
    obtain ⟨h1, h2⟩ := ih (e.Add key) hstep.1
    have hall : e.AddAll (key :: keys) = (e.Add key).AddAll keys := by
      simp [ExactEstimator.AddAll]
    rw [hall]
    refine ⟨h1, ?_⟩
    rw [h2, hstep.2]
    ext x
    simp only [Finset.mem_union, Finset.mem_insert, List.mem_toFinset, List.toFinset_cons]
    tauto

theorem ExactEstimator.Count_AddAll (keys : List Nat) :
    (NewExactEstimator.AddAll keys).Count = keys.toFinset.card := by
  obtain ⟨hnd, hset⟩ := ExactEstimator.AddAll_keys keys NewExactEstimator (by
    simp [NewExactEstimator])
  have hlen : (NewExactEstimator.AddAll keys).Count =
      ((NewExactEstimator.AddAll keys).values.map Prod.fst).length := by
    simp [ExactEstimator.Count]
  rw [hlen, ← List.toFinset_card_of_nodup hnd, hset]
  simp [NewExactEstimator]

/-- C9. The exact estimator is exact: after adding any finite sequence of keys to a
fresh `NewExactEstimator()`, `Count()` is the number of distinct keys of the
sequence.  So adding one key any positive number of times gives 1, adding pairwise
distinct keys gives their number, adding again a key that was added before leaves
`Count()` as it is, and the keys `0..999` each added 5 times give 1000. -/
theorem ExactEstimator_is_exact (keys : List Nat) :
    (NewExactEstimator.AddAll keys).Count = keys.toFinset.card ∧
    (∀ key n, 0 < n → (NewExactEstimator.AddAll (List.replicate n key)).Count = 1) ∧
    (keys.Nodup → (NewExactEstimator.AddAll keys).Count = keys.length) ∧
    (∀ key, key ∈ keys →
      ((NewExactEstimator.AddAll keys).Add key).Count = (NewExactEstimator.AddAll keys).Count) ∧
    (NewExactEstimator.AddAll (List.replicate 5 (List.range 1000)).flatten).Count = 1000 := by
  refine ⟨ExactEstimator.Count_AddAll keys, ?_, ?_, ?_, ?_⟩
  · intro key n hn
    rw [ExactEstimator.Count_AddAll]
    obtain ⟨m, rfl⟩ : ∃ m, n = m + 1 := ⟨n - 1, by omega⟩
    have : (List.replicate (m + 1) key).toFinset = {key} := by
      ext x
      simp [List.mem_replicate]
    rw [this, Finset.card_singleton]
  · intro hnd
    rw [ExactEstimator.Count_AddAll, List.toFinset_card_of_nodup hnd]
  · intro key hmem
    have h : (NewExactEstimator.AddAll keys).Add key = NewExactEstimator.AddAll (keys ++ [key]) := by
      simp [ExactEstimator.AddAll]
    rw [h, ExactEstimator.Count_AddAll, ExactEstimator.Count_AddAll]
    congr 1
    ext x
    simp only [List.toFinset_append, Finset.mem_union, List.mem_toFinset, List.toFinset_cons,
      List.toFinset_nil, insert_emptyc_eq, Finset.mem_singleton]
    constructor
    · rintro (h | h)
      · exact h
      · exact h ▸ hmem
    · exact Or.inl
  · rw [ExactEstimator.Count_AddAll]
    have : (List.replicate 5 (List.range 1000)).flatten.toFinset = Finset.range 1000 := by
      ext x
      simp [List.mem_flatten, List.mem_replicate]
    rw [this, Finset.card_range]

/-- The exact estimator on the sequence 7, 7, 3, which has two distinct keys. -/
theorem ExactEstimator_is_exact_witness :
    (NewExactEstimator.AddAll [7, 7, 3]).Count = 2 ∧
    ((0 < 4) ∧ (NewExactEstimator.AddAll (List.replicate 4 7)).Count = 1) ∧
    (([7, 3] : List Nat).Nodup ∧ (NewExactEstimator.AddAll [7, 3]).Count = 2) ∧
    ((7 ∈ [7, 7, 3]) ∧ ((NewExactEstimator.AddAll [7, 7, 3]).Add 7).Count =
      (NewExactEstimator.AddAll [7, 7, 3]).Count) :=
  ⟨(ExactEstimator_is_exact [7, 7, 3]).1.trans (by decide),
   ⟨by decide, (ExactEstimator_is_exact []).2.1 7 4 (by decide)⟩,
   ⟨by decide, (ExactEstimator_is_exact [7, 3]).2.2.1 (by decide)⟩,
   ⟨by decide, (ExactEstimator_is_exact [7, 7, 3]).2.2.2.1 7 (by decide)⟩⟩

/-! ## Count -/

theorem registerCount_eq {w : Nat} (hw : w ≤ 20) : (1 <<< w) % 2 ^ 64 = 2 ^ w := by
  rw [Nat.shiftLeft_eq, Nat.one_mul]
  apply Nat.mod_eq_of_lt
  calc 2 ^ w ≤ 2 ^ 20 := Nat.pow_le_pow_right (by norm_num) hw
    _ < 2 ^ 64 := by norm_num

theorem foldl_pow_sum (arr : List Nat) :
    ∀ init : ℚ, arr.foldl (fun (sum : ℚ) (i : Nat) => sum + (2 : ℚ) ^ (-(i : ℤ))) init =
      init + (arr.map (fun (i : Nat) => (2 : ℚ) ^ (-(i : ℤ)))).sum := by
  induction arr with
  | nil =>
    intro init
    simp
  | cons a arr ih =>
    intro init
    rw [List.foldl_cons, ih, List.map_cons, List.sum_cons]
    ring

theorem HarmonicMean_eq (arr : List Nat) :
    HarmonicMean arr = 1 / (arr.map (fun (i : Nat) => (2 : ℚ) ^ (-(i : ℤ)))).sum := by
  unfold HarmonicMean
  rw [foldl_pow_sum, zero_add]

theorem foldl_zeros (l : List Nat) :
    ∀ init : Nat,
      l.foldl (fun (zeros : Nat) (i : Nat) => if i = 0 then zeros + 1 else zeros) init =
        init + l.count 0 := by
  induction l with
  | nil =>
    intro init
    simp
  | cons a l ih =>
    intro init
    rw [List.foldl_cons, ih]
    by_cases ha : a = 0
    · subst ha
      rw [if_pos rfl, List.count_cons_self]
      omega
    · rw [if_neg ha, List.count_cons_of_ne (Ne.symm ha)]

theorem countZeros_eq (e : HLLEstimator) : countZeros e = e.registers.count 0 := by
  unfold countZeros
  rw [foldl_zeros, Nat.zero_add]

theorem estimate_eq (e : HLLEstimator) (h20 : e.registerWidth ≤ 20) :
    estimate e = 0.7213 / (1 + 1.079 / (2 : ℚ) ^ e.registerWidth) *
      (2 : ℚ) ^ e.registerWidth * (2 : ℚ) ^ e.registerWidth *
      (1 / (e.registers.map (fun (i : Nat) => (2 : ℚ) ^ (-(i : ℤ)))).sum) := by
  simp only [estimate, HLLConstant, registerCount_eq h20, HarmonicMean_eq]
  push_cast
  rfl

theorem natFloor_ratCast (q : ℚ) : ⌊(q : ℝ)⌋₊ = ⌊q⌋₊ := by
  rw [← Int.floor_toNat, ← Int.floor_toNat, Rat.floor_cast]

theorem sum_cast (l : List Nat) :
    (((l.map (fun (i : Nat) => (2 : ℚ) ^ (-(i : ℤ)))).sum : ℚ) : ℝ) =
      (l.map (fun (r : Nat) => (2 : ℝ) ^ (-(r : ℤ)))).sum := by
  induction l with
  | nil => simp
  | cons a l ih =>
    rw [List.map_cons, List.sum_cons, List.map_cons, List.sum_cons, Rat.cast_add, ih]
    congr 1
    simp

theorem estimate_cast (e : HLLEstimator) (h20 : e.registerWidth ≤ 20) :
    ((estimate e : ℚ) : ℝ) = rawEstimateSpec e.registerWidth e.registers := by
  rw [estimate_eq e h20, rawEstimateSpec]
  have hc1 : ((0.7213 : ℚ) : ℝ) = 0.7213 := by norm_num
  have hc2 : ((1.079 : ℚ) : ℝ) = 1.079 := by norm_num
  simp only [Rat.cast_mul, Rat.cast_div, Rat.cast_one, Rat.cast_add, Rat.cast_pow,
    Rat.cast_ofNat, sum_cast, hc1, hc2]
  ring

theorem uint64Floor_of_lt {α : Type} [LinearOrderedField α] [FloorSemiring α] {x : α}
    (h : x < 2 ^ 64) : uint64Floor x = ⌊x⌋₊ := by
  unfold uint64Floor
  rw [if_pos h]

theorem uint64Floor_of_ge {α : Type} [LinearOrderedField α] [FloorSemiring α] {x : α}
    (h : 2 ^ 64 ≤ x) : uint64Floor x = 2 ^ 63 := by
  unfold uint64Floor
  rw [if_neg (not_lt.2 h)]

/-- The result of the conversion is a `uint64`. -/
theorem uint64Floor_lt {α : Type} [LinearOrderedField α] [FloorSemiring α] (x : α) :
    uint64Floor x < 2 ^ 64 := by
  unfold uint64Floor
  split
  · rename_i h
    by_cases h0 : 0 ≤ x
    · rw [Nat.floor_lt h0]
      exact_mod_cast h
    · rw [Nat.floor_of_nonpos (le_of_lt (not_le.1 h0))]
      positivity
  · norm_num

theorem uint64Floor_ratCast (q : ℚ) : uint64Floor ((q : ℚ) : ℝ) = uint64Floor q := by
  unfold uint64Floor
  have h : ((q : ℚ) : ℝ) < 2 ^ 64 ↔ q < 2 ^ 64 := by
    constructor
    · intro h
      exact_mod_cast h
    · intro h
      exact_mod_cast h
  by_cases hq : q < 2 ^ 64
  · rw [if_pos hq, if_pos (h.2 hq), natFloor_ratCast]
  · rw [if_neg hq, if_neg (fun hc => hq (h.1 hc))]

theorem one_le_uint64Floor {x : ℝ} (h : 1 ≤ x) : 1 ≤ uint64Floor x := by
  unfold uint64Floor
  split
  · rw [Nat.one_le_floor_iff]
    exact h
  · norm_num

/-- The linear counting value is below `2 ^ 64` whatever the number of zero
registers, so its conversion is the floor. -/
theorem linear_value_lt_two_pow_64 {w : Nat} (h20 : w ≤ 20) (z : Nat) :
    (2 : ℝ) ^ w * Real.log ((2 : ℝ) ^ w / (z : ℝ)) < 2 ^ 64 := by
  have hM0 : (0 : ℝ) < (2 : ℝ) ^ w := by positivity
  have hM1 : (1 : ℝ) ≤ (2 : ℝ) ^ w := one_le_pow₀ (by norm_num)
  have hM : (2 : ℝ) ^ w ≤ 2 ^ 20 := pow_le_pow_right₀ (by norm_num) h20
  by_cases hz : z = 0
  · subst hz
    rw [Nat.cast_zero, div_zero, Real.log_zero, mul_zero]
    positivity
  · have hz1 : (1 : ℝ) ≤ (z : ℝ) := by
      have : 1 ≤ z := Nat.one_le_iff_ne_zero.2 hz
      exact_mod_cast this
    have hz0 : (0 : ℝ) < (z : ℝ) := by linarith
    have hq : 0 < (2 : ℝ) ^ w / (z : ℝ) := div_pos hM0 hz0
    have h1 := Real.log_le_sub_one_of_pos hq
    have h2 : (2 : ℝ) ^ w / (z : ℝ) ≤ (2 : ℝ) ^ w := div_le_self (le_of_lt hM0) hz1
    have h3 : Real.log ((2 : ℝ) ^ w / (z : ℝ)) ≤ (2 : ℝ) ^ w := by linarith
    have h4 : (2 : ℝ) ^ w * Real.log ((2 : ℝ) ^ w / (z : ℝ)) ≤ (2 : ℝ) ^ w * (2 : ℝ) ^ w :=
      mul_le_mul_of_nonneg_left h3 (le_of_lt hM0)
    have h5 : (2 : ℝ) ^ w * (2 : ℝ) ^ w ≤ 2 ^ 20 * 2 ^ 20 :=
      mul_le_mul hM hM (le_of_lt hM0) (by positivity)
    have h6 : (2 : ℝ) ^ 20 * 2 ^ 20 < 2 ^ 64 := by norm_num
    linarith

theorem LinearCount_eq (e : HLLEstimator) (h20 : e.registerWidth ≤ 20) :
    LinearCount e = ⌊(2 : ℝ) ^ e.registerWidth *
      Real.log ((2 : ℝ) ^ e.registerWidth / (e.registers.count 0 : ℝ))⌋₊ := by
  simp only [LinearCount, registerCount_eq h20, countZeros_eq]
  push_cast
  exact uint64Floor_of_lt (linear_value_lt_two_pow_64 h20 _)

theorem pow_sum_pos (l : List Nat) (hl : l ≠ []) :
    0 < (l.map (fun (r : Nat) => (2 : ℝ) ^ (-(r : ℤ)))).sum := by
  induction l with
  | nil => exact absurd rfl hl
  | cons a l ih =>
    rw [List.map_cons, List.sum_cons]
    have ha : 0 < (2 : ℝ) ^ (-(a : ℤ)) := by positivity
    by_cases hnil : l = []
    · subst hnil
      rw [List.map_nil, List.sum_nil, add_zero]
      exact ha
    · exact add_pos ha (ih hnil)

/-- C2, as amended. The formula of `Count`, with the `float64` operations read as
exact arithmetic: on a state with `registerWidth = w` at most 20 (so for every `w`
in `[8, 20]`) and `m = 2 ^ w` registers `r_i`, with
`E = (0.7213 / (1 + 1.079/m)) * m^2 * (1 / Σ 2^(-r_i))` and `zeroCount` the number
of registers equal to 0, `Count` returns `floor(m * ln(m / zeroCount))` when
`E < 2.5 * m` and `zeroCount ≠ 0`, and `floor(E)` in every other case in which
`E < 2 ^ 64`.  The sum `Σ 2^(-r_i)` is positive, so `E` divides by no zero. -/
theorem Count_formula (e : HLLEstimator) (h20 : e.registerWidth ≤ 20)
    (hlen : e.registers.length = 2 ^ e.registerWidth)
    (hrange : (rawEstimateSpec e.registerWidth e.registers < 2.5 * (2 : ℝ) ^ e.registerWidth ∧
        e.registers.count 0 ≠ 0) ∨
      rawEstimateSpec e.registerWidth e.registers < 2 ^ 64) :
    Count e = CountSpec e.registerWidth e.registers ∧
    0 < (e.registers.map (fun (r : Nat) => (2 : ℝ) ^ (-(r : ℤ)))).sum := by
  have hne : e.registers ≠ [] := by
    intro h
    rw [h] at hlen
    have : 0 < 2 ^ e.registerWidth := by positivity
    simp only [List.length_nil] at hlen
    omega
  refine ⟨?_, pow_sum_pos e.registers hne⟩
  have hcast := estimate_cast e h20
  have hlt : estimate e < 5 / 2 * ((2 ^ e.registerWidth : Nat) : ℚ) ↔
      rawEstimateSpec e.registerWidth e.registers < 2.5 * (2 : ℝ) ^ e.registerWidth := by
    rw [← hcast, ← @Rat.cast_lt _ _ ℝ]
    push_cast
    norm_num
  have hconv : rawEstimateSpec e.registerWidth e.registers < 2 ^ 64 →
      uint64Floor (estimate e) = ⌊rawEstimateSpec e.registerWidth e.registers⌋₊ := by
    intro h
    rw [← hcast] at h ⊢
    have h2 : estimate e < 2 ^ 64 := by exact_mod_cast h
    rw [uint64Floor_of_lt h2, natFloor_ratCast]
  simp only [Count, CountSpec, registerCount_eq h20, countZeros_eq]
  by_cases hE : rawEstimateSpec e.registerWidth e.registers < 2.5 * (2 : ℝ) ^ e.registerWidth
  · rw [if_pos (hlt.2 hE)]
    by_cases hz : e.registers.count 0 = 0
    · have hn : ¬ (rawEstimateSpec e.registerWidth e.registers < 2.5 * (2 : ℝ) ^ e.registerWidth
          ∧ List.count 0 e.registers ≠ 0) := fun h => h.2 hz
      have h64 : rawEstimateSpec e.registerWidth e.registers < 2 ^ 64 := by
        rcases hrange with h | h
        · exact absurd hz h.2
        · exact h
      rw [if_neg (not_not.2 hz), if_neg hn, hconv h64]
    · rw [if_pos hz, if_pos ⟨hE, hz⟩, LinearCount_eq e h20]
  · have hn : ¬ (rawEstimateSpec e.registerWidth e.registers < 2.5 * (2 : ℝ) ^ e.registerWidth
        ∧ List.count 0 e.registers ≠ 0) := fun h => hE h.1
    have h64 : rawEstimateSpec e.registerWidth e.registers < 2 ^ 64 := by
      rcases hrange with h | h
      · exact absurd h.1 hE
      · exact h
    rw [if_neg (fun h => hE (hlt.1 h)), if_neg hn, hconv h64]

/-- The formula of `Count` on the fresh width-8 estimator, where `E` is
`0.7213 / (1 + 1.079/256) * 256`, below `2.5 * 256`, and all 256 registers are 0. -/
theorem Count_formula_witness :
    (8 ≤ 20 ∧ (List.replicate 256 0).length = 2 ^ 8 ∧
      rawEstimateSpec 8 (List.replicate 256 0) < 2.5 * (2 : ℝ) ^ 8 ∧
      (List.replicate 256 0).count 0 ≠ 0) ∧
    Count ⟨8, List.replicate 256 0⟩ = CountSpec 8 (List.replicate 256 0) ∧
    0 < ((List.replicate 256 0).map (fun (r : Nat) => (2 : ℝ) ^ (-(r : ℤ)))).sum := by
  have hE : rawEstimateSpec 8 (List.replicate 256 0) < 2.5 * (2 : ℝ) ^ 8 := by
    unfold rawEstimateSpec
    rw [List.map_replicate, List.sum_replicate]
    norm_num
  have hz : (List.replicate 256 0).count 0 ≠ 0 := by
    rw [List.count_replicate_self]
    decide
  exact ⟨⟨by decide, List.length_replicate 256 0, hE, hz⟩,
    Count_formula ⟨8, List.replicate 256 0⟩ (by decide) (List.length_replicate 256 0)
      (Or.inl ⟨hE, hz⟩)⟩

/-! ## Count on the fresh estimator and after one key -/

theorem map_sum_set (f : Nat → ℚ) (l : List Nat) :
    ∀ (i : Nat) (hi : i < l.length) (x : Nat),
      ((l.set i x).map f).sum = (l.map f).sum - f l[i] + f x := by
  induction l with
  | nil =>
    intro i hi
    exact absurd hi (Nat.not_lt_zero _)
  | cons a l ih =>
    intro i hi x
    cases i with
    | zero =>
      simp only [List.set_cons_zero, List.map_cons, List.sum_cons, List.getElem_cons_zero]
      ring
    | succ j =>
      have hj : j < l.length := by simpa using hi
      simp only [List.set_cons_succ, List.map_cons, List.sum_cons, List.getElem_cons_succ,
        ih j hj x]
      ring

theorem map_sum_replicate_zero (m : Nat) :
    ((List.replicate m 0).map (fun (i : Nat) => (2 : ℚ) ^ (-(i : ℤ)))).sum = (m : ℚ) := by
  rw [List.map_replicate, List.sum_replicate]
  simp

/-- The linear counting value with one register taken: `m * ln(m / (m - 1))` lies in
`[1, 2)`. -/
theorem floor_linear_one (x : ℝ) (hx : 3 ≤ x) : ⌊x * Real.log (x / (x - 1))⌋₊ = 1 := by
  have hx0 : 0 < x := by linarith
  have hx1 : 0 < x - 1 := by linarith
  have hq : 0 < x / (x - 1) := div_pos hx0 hx1
  have hlow : 1 / x ≤ Real.log (x / (x - 1)) := by
    have h := Real.one_sub_inv_le_log_of_pos hq
    have he : 1 - (x / (x - 1))⁻¹ = 1 / x := by
      field_simp
    rw [he] at h
    exact h
  have hup : Real.log (x / (x - 1)) ≤ 1 / (x - 1) := by
    have h := Real.log_le_sub_one_of_pos hq
    have he : x / (x - 1) - 1 = 1 / (x - 1) := by
      field_simp
    rw [he] at h
    exact h
  have h1 : 1 ≤ x * Real.log (x / (x - 1)) := by
    have := mul_le_mul_of_nonneg_left hlow (le_of_lt hx0)
    rwa [mul_one_div_cancel (ne_of_gt hx0)] at this
  have h2 : x * Real.log (x / (x - 1)) < 2 := by
    have h3 := mul_le_mul_of_nonneg_left hup (le_of_lt hx0)
    have h4 : x * (1 / (x - 1)) < 2 := by
      rw [mul_one_div, div_lt_iff₀ hx1]
      linarith
    linarith
  rw [Nat.floor_eq_iff (by linarith)]
  constructor
  · simpa using h1
  · norm_num
    exact h2

theorem two_pow_ge {w : Nat} (h8 : 8 ≤ w) : (256 : ℚ) ≤ (2 : ℚ) ^ w := by
  calc (256 : ℚ) = 2 ^ 8 := by norm_num
    _ ≤ 2 ^ w := pow_le_pow_right₀ (by norm_num) h8

theorem HLLConstant_le (M : ℚ) (hM : 0 < M) :
    0 < 0.7213 / (1 + 1.079 / M) ∧ 0.7213 / (1 + 1.079 / M) ≤ 0.7213 := by
  have hd : (1 : ℚ) ≤ 1 + 1.079 / M := by
    have : 0 ≤ 1.079 / M := by positivity
    linarith
  exact ⟨by positivity, div_le_self (by norm_num) hd⟩

/-- When the raw estimate is below `2.5 * m` and some register is 0, `Count`
returns the linear counting value. -/
theorem Count_linear (e : HLLEstimator) (h20 : e.registerWidth ≤ 20)
    (hE : estimate e < 5 / 2 * (2 : ℚ) ^ e.registerWidth) (hz : e.registers.count 0 ≠ 0) :
    Count e = LinearCount e := by
  have hE2 : estimate e < 5 / 2 * ((2 ^ e.registerWidth : Nat) : ℚ) := by
    push_cast
    exact hE
  simp only [Count, registerCount_eq h20, countZeros_eq, if_pos hE2]
  rw [if_pos hz]

theorem estimate_fresh {w : Nat} (h20 : w ≤ 20) :
    estimate ⟨w, List.replicate (2 ^ w) 0⟩ < 5 / 2 * (2 : ℚ) ^ w := by
  rw [estimate_eq _ h20]
  simp only [map_sum_replicate_zero]
  push_cast
  have hM : (0 : ℚ) < (2 : ℚ) ^ w := by positivity
  obtain ⟨hc0, hc⟩ := HLLConstant_le ((2 : ℚ) ^ w) hM
  have he : 0.7213 / (1 + 1.079 / (2 : ℚ) ^ w) * (2 : ℚ) ^ w * (2 : ℚ) ^ w * (1 / (2 : ℚ) ^ w) =
      0.7213 / (1 + 1.079 / (2 : ℚ) ^ w) * (2 : ℚ) ^ w := by
    field_simp
    ring
  rw [he]
  have h1 : 0.7213 / (1 + 1.079 / (2 : ℚ) ^ w) * (2 : ℚ) ^ w ≤ 0.7213 * (2 : ℚ) ^ w :=
    mul_le_mul_of_nonneg_right hc (le_of_lt hM)
  linarith

theorem LinearCount_fresh {w : Nat} (h20 : w ≤ 20) :
    LinearCount ⟨w, List.replicate (2 ^ w) 0⟩ = 0 := by
  rw [LinearCount_eq _ h20]
  simp only [List.count_replicate_self]
  push_cast
  rw [div_self (by positivity), Real.log_one, mul_zero, Nat.floor_zero]

/-- C6. `Count` before any `Add` is 0: for a width `w` in `[8, 20]`, on the
estimator `NewHLL(w)` returns, the raw estimate is below `2.5 * 2^w`, all `2^w`
registers are zero, the linear counting value is 0, and `Count` returns 0. -/
theorem Count_fresh_is_zero (w : Nat) (h8 : 8 ≤ w) (h20 : w ≤ 20) :
    ∃ e, NewHLL w = some e ∧ estimate e < 5 / 2 * (2 : ℚ) ^ w ∧ countZeros e = 2 ^ w ∧
      LinearCount e = 0 ∧ Count e = 0 := by
  refine ⟨_, NewHLL_eq h8 h20, estimate_fresh h20, ?_, ?_, ?_⟩
  · rw [countZeros_eq]
    exact List.count_replicate_self 0 (2 ^ w)
  · exact LinearCount_fresh h20
  · rw [Count_linear _ h20 (estimate_fresh h20), LinearCount_fresh h20]
    simp only [List.count_replicate_self]
    positivity

/-- `Count` before any `Add` at width 8. -/
theorem Count_fresh_is_zero_witness :
    (8 ≤ 8 ∧ 8 ≤ 20) ∧
    ∃ e, NewHLL 8 = some e ∧ estimate e < 5 / 2 * (2 : ℚ) ^ 8 ∧ countZeros e = 2 ^ 8 ∧
      LinearCount e = 0 ∧ Count e = 0 :=
  ⟨⟨by decide, by decide⟩, Count_fresh_is_zero 8 (by decide) (by decide)⟩

/-- The state after one `Add` on the fresh estimator: one register holds a rank of
at least 1, the others are 0. -/
theorem Add_fresh {w : Nat} (k : Nat) (h8 : 8 ≤ w) (h20 : w ≤ 20) (hk : k < 2 ^ 64) :
    ∃ rank, 1 ≤ rank ∧ k >>> (64 - w) < 2 ^ w ∧
      Add ⟨w, List.replicate (2 ^ w) 0⟩ k =
        some ⟨w, (List.replicate (2 ^ w) 0).set (k >>> (64 - w)) rank⟩ := by
  obtain ⟨rank, old, hrank, hold, hadd⟩ :=
    Add_eq ⟨w, List.replicate (2 ^ w) 0⟩ k h8 h20 (List.length_replicate _ _) hk
  obtain ⟨r2, hr2, hpos, _, _⟩ := @keyRank_bounds w k h8 h20
  have hidx : k >>> (64 - w) < 2 ^ w := index_lt (by omega) hk
  simp only at hrank hold hadd
  rw [hrank] at hr2
  have hr : rank = r2 := Option.some.inj hr2
  subst hr
  simp only [List.getElem?_replicate, if_pos hidx] at hold
  have ho : old = 0 := (Option.some.inj hold).symm
  subst ho
  rw [Nat.zero_max] at hadd
  exact ⟨rank, hpos, hidx, hadd⟩

/-- C7. A single added key counts as 1 (with the `float64` operations read as exact
arithmetic): for a width `w` in `[8, 20]` and a 64-bit key `k`, `NewHLL(w)` and one
`Add(k)` return, and `Count()` on the state after is 1. -/
theorem Count_single_key (w k : Nat) (h8 : 8 ≤ w) (h20 : w ≤ 20) (hk : k < 2 ^ 64) :
    ∃ e0 e1, NewHLL w = some e0 ∧ Add e0 k = some e1 ∧ Count e1 = 1 := by
  obtain ⟨rank, hpos, hidx, hadd⟩ := Add_fresh k h8 h20 hk
  refine ⟨_, _, NewHLL_eq h8 h20, hadd, ?_⟩
  have hlen : k >>> (64 - w) < (List.replicate (2 ^ w) 0).length := by
    rw [List.length_replicate]
    exact hidx
  have hM : (256 : ℚ) ≤ (2 : ℚ) ^ w := two_pow_ge h8
  have hcount : ((List.replicate (2 ^ w) 0).set (k >>> (64 - w)) rank).count 0 = 2 ^ w - 1 := by
    rw [List.count_set _ _ _ _ hlen, List.count_replicate_self]
    have hr : ¬ ((rank == 0) = true) := by
      simp only [beq_iff_eq]
      omega
    simp only [List.getElem_replicate, beq_self_eq_true, if_true, if_neg hr, Nat.add_zero]
  have hone : 1 ≤ 2 ^ w := Nat.one_le_two_pow
  have hz : ((List.replicate (2 ^ w) 0).set (k >>> (64 - w)) rank).count 0 ≠ 0 := by
    rw [hcount]
    have : 256 ≤ 2 ^ w := by
      calc 256 = 2 ^ 8 := by norm_num
        _ ≤ 2 ^ w := Nat.pow_le_pow_right (by norm_num) h8
    omega
  have hE : estimate ⟨w, (List.replicate (2 ^ w) 0).set (k >>> (64 - w)) rank⟩ <
      5 / 2 * (2 : ℚ) ^ w := by
    have h0 : (2 : ℚ) ^ (-((0 : Nat) : ℤ)) = 1 := by norm_num
    rw [estimate_eq _ h20]
    simp only [map_sum_set _ _ _ hlen, map_sum_replicate_zero, List.getElem_replicate, h0]
    push_cast
    have ht : (0 : ℚ) < (2 : ℚ) ^ (-(rank : ℤ)) := by positivity
    have hM0 : (0 : ℚ) < (2 : ℚ) ^ w := by linarith
    obtain ⟨hc0, hc⟩ := HLLConstant_le ((2 : ℚ) ^ w) hM0
    have hS : (0 : ℚ) < (2 : ℚ) ^ w - 1 + (2 : ℚ) ^ (-(rank : ℤ)) := by linarith
    rw [mul_one_div, div_lt_iff₀ hS]
    have h1 : 0.7213 / (1 + 1.079 / (2 : ℚ) ^ w) * (2 : ℚ) ^ w ≤ 0.7213 * (2 : ℚ) ^ w :=
      mul_le_mul_of_nonneg_right hc (le_of_lt hM0)
    have h2 : 0.7213 * (2 : ℚ) ^ w <
        5 / 2 * ((2 : ℚ) ^ w - 1 + (2 : ℚ) ^ (-(rank : ℤ))) := by
      linarith
    have h3 := mul_lt_mul_of_pos_right (lt_of_le_of_lt h1 h2) hM0
    linarith
  rw [Count_linear _ h20 hE hz, LinearCount_eq _ h20]
  simp only
  rw [hcount, Nat.cast_sub hone]
  push_cast
  apply floor_linear_one
  have : (256 : ℝ) ≤ (2 : ℝ) ^ w := by
    calc (256 : ℝ) = 2 ^ 8 := by norm_num
      _ ≤ 2 ^ w := pow_le_pow_right₀ (by norm_num) h8
  linarith

/-- A single key at width 8: the all-zero key of `TestAllZeroesHash`, and the key
of `ExampleHLLEstimator`, the 64-bit FNV-1a hash of the eight big-endian bytes
of 1. -/
theorem Count_single_key_witness :
    (8 ≤ 8 ∧ 8 ≤ 20 ∧ 0 < 2 ^ 64 ∧ 12161961113530546194 < 2 ^ 64) ∧
    (∃ e0 e1, NewHLL 8 = some e0 ∧ Add e0 0 = some e1 ∧ Count e1 = 1) ∧
    (∃ e0 e1, NewHLL 8 = some e0 ∧ Add e0 12161961113530546194 = some e1 ∧ Count e1 = 1) :=
  ⟨⟨by decide, by decide, by decide, by decide⟩,
    Count_single_key 8 0 (by decide) (by decide) (by decide),
    Count_single_key 8 12161961113530546194 (by decide) (by decide) (by decide)⟩

/-! ## CountLeadingZeros and the highest set bit -/

theorem log2_mono {a b : Nat} (h : a ≤ b) : Nat.log2 a ≤ Nat.log2 b := by
  rw [Nat.log2_eq_log_two, Nat.log2_eq_log_two]
  exact Nat.log_mono_right h

/-- C11. `CountLeadingZeros` is strictly monotonic in the position of the highest
set bit (`log2`): on 64-bit words `a`, `b` it returns, and for non-zero `a`, `b` a
strictly lower highest set bit of `a` gives a strictly larger result, equal
positions give equal results; for all words, 0 included, `a ≤ b` gives
`CountLeadingZeros(b) ≤ CountLeadingZeros(a)`. -/
theorem CountLeadingZeros_monotone (a b : Nat) (ha : a < 2 ^ 64) (hb : b < 2 ^ 64) :
    ∃ ca cb, CountLeadingZeros a = some ca ∧ CountLeadingZeros b = some cb ∧
      (a ≠ 0 → b ≠ 0 → Nat.log2 a < Nat.log2 b → cb < ca) ∧
      (a ≠ 0 → b ≠ 0 → Nat.log2 a = Nat.log2 b → ca = cb) ∧
      (a ≤ b → cb ≤ ca) := by
  refine ⟨_, _, CountLeadingZeros_eq ha, CountLeadingZeros_eq hb, ?_, ?_, ?_⟩
  · intro ha0 hb0 hlt
    have h1 := log2_le_63 hb0 hb
    rw [if_neg ha0, if_neg hb0]
    omega
  · intro ha0 hb0 heq
    rw [if_neg ha0, if_neg hb0, heq]
  · intro hle
    by_cases ha0 : a = 0
    · rw [if_pos ha0]
      by_cases hb0 : b = 0
      · rw [if_pos hb0]
      · rw [if_neg hb0]
        omega
    · have hb0 : b ≠ 0 := by omega
      have hm := log2_mono hle
      rw [if_neg ha0, if_neg hb0]
      omega

/-- Monotonicity at the words `2 ^ 31` and `2 ^ 60`. -/
theorem CountLeadingZeros_monotone_witness :
    (2 ^ 31 < 2 ^ 64 ∧ 2 ^ 60 < 2 ^ 64) ∧
    ∃ ca cb, CountLeadingZeros (2 ^ 31) = some ca ∧ CountLeadingZeros (2 ^ 60) = some cb ∧
      ((2 ^ 31 : Nat) ≠ 0 → (2 ^ 60 : Nat) ≠ 0 → Nat.log2 (2 ^ 31) < Nat.log2 (2 ^ 60) →
        cb < ca) ∧
      ((2 ^ 31 : Nat) ≠ 0 → (2 ^ 60 : Nat) ≠ 0 → Nat.log2 (2 ^ 31) = Nat.log2 (2 ^ 60) →
        ca = cb) ∧
      (2 ^ 31 ≤ 2 ^ 60 → cb ≤ ca) :=
  ⟨⟨by decide, by decide⟩, CountLeadingZeros_monotone (2 ^ 31) (2 ^ 60) (by decide) (by decide)⟩

/-! ## SplitWord64 -/

theorem SplitWord64_general {n : Nat} (word : Nat) (h1 : 1 ≤ n) (h63 : n ≤ 63) :
    SplitWord64 word n = (word >>> (64 - n), (word <<< n) % 2 ^ 64) := by
  have ha : 64 - n < 64 := by omega
  have hb : n < 64 := by omega
  simp only [SplitWord64, usub_64 (by omega : n ≤ 64), shr64, shl64, if_pos ha, if_pos hb]

/-- C12. The ranges of `SplitWord64`: for a 64-bit word and `n` in `[1, 63]` the
head is `word >> (64 - n)`, the top `n` bits of the word, and lies in `[0, 2^n)`;
the tail is `(word << n) mod 2^64`, the low `64 - n` bits of the word moved to the
top, and its low `n` bits are zero. -/
theorem SplitWord64_ranges (word n : Nat) (hw : word < 2 ^ 64) (h1 : 1 ≤ n) (h63 : n ≤ 63) :
    SplitWord64 word n = (word >>> (64 - n), (word <<< n) % 2 ^ 64) ∧
    (SplitWord64 word n).1 = word / 2 ^ (64 - n) ∧
    (SplitWord64 word n).1 < 2 ^ n ∧
    (SplitWord64 word n).2 = 2 ^ n * (word % 2 ^ (64 - n)) ∧
    (SplitWord64 word n).2 % 2 ^ n = 0 ∧
    (SplitWord64 word n).2 < 2 ^ 64 := by
  have hs := SplitWord64_general word h1 h63
  refine ⟨hs, ?_, ?_, ?_, ?_, ?_⟩
  · rw [hs, Nat.shiftRight_eq_div_pow]
  · rw [hs]
    exact index_lt (by omega) hw
  · rw [hs]
    exact remainder_eq n word (by omega)
  · rw [hs]
    simp only
    rw [remainder_eq n word (by omega), Nat.mul_mod_right]
  · rw [hs]
    exact Nat.mod_lt _ (by positivity)

/-- The two cases of `TestSplitWord64`: `(2^63, 10)` gives `(2^9, 0)` and
`(2^63 + 2^31, 32)` gives `(2^31, 2^63)`. -/
theorem SplitWord64_ranges_witness :
    (2 ^ 63 < 2 ^ 64 ∧ 1 ≤ 10 ∧ 10 ≤ 63 ∧ 2 ^ 63 + 2 ^ 31 < 2 ^ 64 ∧ 1 ≤ 32 ∧ 32 ≤ 63) ∧
    SplitWord64 (2 ^ 63) 10 = (2 ^ 9, 0) ∧
    SplitWord64 (2 ^ 63 + 2 ^ 31) 32 = (2 ^ 31, 2 ^ 63) :=
  ⟨⟨by decide, by decide, by decide, by decide, by decide, by decide⟩,
    (SplitWord64_ranges (2 ^ 63) 10 (by decide) (by decide) (by decide)).1.trans (by decide),
    (SplitWord64_ranges (2 ^ 63 + 2 ^ 31) 32 (by decide) (by decide) (by decide)).1.trans
      (by decide)⟩

/-- C13. The round trip of `SplitWord64`: for a 64-bit word `w` and `n` in
`[1, 63]`, with `(head, tail) = SplitWord64(w, n)`, the Go expression
`(head << (64-n)) | (tail >> n)` is `w`. -/
theorem SplitWord64_round_trip (w n : Nat) (hw : w < 2 ^ 64) (h1 : 1 ≤ n) (h63 : n ≤ 63) :
    shl64 (SplitWord64 w n).1 (usub 64 n) ||| shr64 (SplitWord64 w n).2 n = w := by
  have hs := SplitWord64_general w h1 h63
  have ha : 64 - n < 64 := by omega
  have hb : n < 64 := by omega
  rw [hs]
  simp only [usub_64 (by omega : n ≤ 64), shr64, shl64, if_pos ha, if_pos hb]
  rw [remainder_eq n w (by omega), Nat.shiftRight_eq_div_pow, Nat.shiftRight_eq_div_pow,
    Nat.shiftLeft_eq, Nat.mul_div_cancel_left _ (by positivity : 0 < 2 ^ n)]
  have hle : w / 2 ^ (64 - n) * 2 ^ (64 - n) ≤ w := Nat.div_mul_le_self _ _
  rw [Nat.mod_eq_of_lt (lt_of_le_of_lt hle hw), Nat.mul_comm,
    ← Nat.mul_add_lt_is_or (Nat.mod_lt _ (by positivity)), Nat.div_add_mod]

/-- The round trip at the word `2^63 + 2^31` split at bit 32. -/
theorem SplitWord64_round_trip_witness :
    (2 ^ 63 + 2 ^ 31 < 2 ^ 64 ∧ 1 ≤ 32 ∧ 32 ≤ 63) ∧
    shl64 (SplitWord64 (2 ^ 63 + 2 ^ 31) 32).1 (usub 64 32) |||
      shr64 (SplitWord64 (2 ^ 63 + 2 ^ 31) 32).2 32 = 2 ^ 63 + 2 ^ 31 :=
  ⟨⟨by decide, by decide, by decide⟩,
    SplitWord64_round_trip (2 ^ 63 + 2 ^ 31) 32 (by decide) (by decide) (by decide)⟩

/-! ## Bounds on the registers and on the index -/

/-- C16. The bound on the register values: in every state reachable from
`NewHLL(w)` by `Add` calls (so `w` is in `[8, 20]`) every register is at most
`64 - w + 1`, hence at most 57 and at most 64; and every key has a rank in
`[1, 64 - w + 1]`, which for a non-zero remainder `key << w` is
`CountLeadingZeros(key << w) + 1` and at most `64 - w`, so that the rank
`64 - w + 1` is only reached by a key whose remainder is 0. -/
theorem register_value_bound (w : Nat) (e : HLLEstimator) (hr : Reachable w e) :
    (8 ≤ w ∧ w ≤ 20) ∧
    (∀ x ∈ e.registers, x ≤ 64 - w + 1 ∧ x ≤ 57 ∧ x ≤ 64) ∧
    (∀ key, ∃ rank, keyRank w key = some rank ∧ 1 ≤ rank ∧ rank ≤ 64 - w + 1 ∧
      ((key <<< w) % 2 ^ 64 ≠ 0 →
        CountLeadingZeros ((key <<< w) % 2 ^ 64) = some (rank - 1) ∧ rank ≤ 64 - w) ∧
      (rank = 64 - w + 1 → (key <<< w) % 2 ^ 64 = 0)) := by
  obtain ⟨h8, h20, _, _, hreg⟩ := Reachable_inv hr
  refine ⟨⟨h8, h20⟩, ?_, ?_⟩
  · intro x hx
    have := hreg x hx
    omega
  · intro key
    obtain ⟨rank, hrank, hpos, hle, hnz⟩ := @keyRank_bounds w key h8 h20
    refine ⟨rank, hrank, hpos, hle, ?_, ?_⟩
    · intro h0
      refine ⟨?_, hnz h0⟩
      unfold keyRank at hrank
      rw [if_neg h0] at hrank
      cases hc : CountLeadingZeros ((key <<< w) % 2 ^ 64) with
      | none =>
        rw [hc] at hrank
        exact Option.noConfusion hrank
      | some z =>
        rw [hc] at hrank
        have : z + 1 = rank := Option.some.inj hrank
        subst this
        rfl
    · intro heq
      by_contra h0
      have := hnz h0
      omega

set_option maxRecDepth 8000 in
/-- The register bound on the state after the key 0 at width 8. -/
theorem register_value_bound_witness :
    (8 ≤ 8 ∧ 8 ≤ 20) ∧
    (∀ x ∈ (List.replicate (1 <<< 8) 0).set 0 57, x ≤ 64 - 8 + 1 ∧ x ≤ 57 ∧ x ≤ 64) ∧
    (∀ key, ∃ rank, keyRank 8 key = some rank ∧ 1 ≤ rank ∧ rank ≤ 64 - 8 + 1 ∧
      ((key <<< 8) % 2 ^ 64 ≠ 0 →
        CountLeadingZeros ((key <<< 8) % 2 ^ 64) = some (rank - 1) ∧ rank ≤ 64 - 8) ∧
      (rank = 64 - 8 + 1 → (key <<< 8) % 2 ^ 64 = 0)) :=
  register_value_bound 8 ⟨8, (List.replicate (1 <<< 8) 0).set 0 57⟩
    (Reachable.add ⟨8, List.replicate (1 <<< 8) 0⟩ _ 0 (Reachable.fresh _ rfl) (by decide) rfl)

/-- C17. `Add` never indexes out of bounds: in every state reachable from
`NewHLL(w)` by `Add` calls the register array has `2 ^ w` entries and
`registerWidth` is `w`; for every 64-bit key the index `key >> (64 - w)` that
`SplitWord64` returns is below `2 ^ w`, the register read succeeds, and `Add`
returns a state with the same width and register count. -/
theorem Add_index_in_bounds (w : Nat) (e : HLLEstimator) (hr : Reachable w e) :
    e.registers.length = 2 ^ w ∧ e.registerWidth = w ∧
    ∀ key, key < 2 ^ 64 →
      (SplitWord64 key e.registerWidth).1 = key >>> (64 - w) ∧
      key >>> (64 - w) < 2 ^ w ∧
      (∃ current, e.registers[(SplitWord64 key e.registerWidth).1]? = some current) ∧
      ∃ e1, Add e key = some e1 ∧ e1.registers.length = 2 ^ w ∧ e1.registerWidth = w := by
  obtain ⟨h8, h20, hw, hlen, hreg⟩ := Reachable_inv hr
  refine ⟨hlen, hw, ?_⟩
  intro key hk
  subst hw
  obtain ⟨rank, old, _, hold, hadd⟩ := Add_eq e key h8 h20 hlen hk
  have hs := SplitWord64_eq key h8 h20
  refine ⟨by rw [hs], index_lt (by omega) hk, ⟨old, by rw [hs]; exact hold⟩, _, hadd, ?_, rfl⟩
  simp only [List.length_set]
  exact hlen

/-- The index bound on the fresh width-8 estimator. -/
theorem Add_index_in_bounds_witness :
    (List.replicate (1 <<< 8) 0).length = 2 ^ 8 ∧ 8 = 8 ∧
    ∀ key, key < 2 ^ 64 →
      (SplitWord64 key 8).1 = key >>> (64 - 8) ∧
      key >>> (64 - 8) < 2 ^ 8 ∧
      (∃ current, (List.replicate (1 <<< 8) 0)[(SplitWord64 key 8).1]? = some current) ∧
      ∃ e1, Add ⟨8, List.replicate (1 <<< 8) 0⟩ key = some e1 ∧
        e1.registers.length = 2 ^ 8 ∧ e1.registerWidth = 8 :=
  Add_index_in_bounds 8 ⟨8, List.replicate (1 <<< 8) 0⟩ (Reachable.fresh _ rfl)

/-! ## The state depends only on the set of keys -/

/-- From a state of an estimator of width `w`, two key sequences with the same
members lead to the same state. -/
theorem AddAll_same_keys {w : Nat} (e : HLLEstimator) (hinv : Inv w e)
    (keys1 keys2 : List Nat) (hk1 : ∀ k ∈ keys1, k < 2 ^ 64)
    (hsame : ∀ k, k ∈ keys1 ↔ k ∈ keys2) :
    ∃ e1, AddAll e keys1 = some e1 ∧ AddAll e keys2 = some e1 := by
  have hk2 : ∀ k ∈ keys2, k < 2 ^ 64 := fun k hk => hk1 k ((hsame k).2 hk)
  obtain ⟨e1, h1, hinv1, hreg1⟩ := AddAll_registers keys1 e hinv hk1
  obtain ⟨e2, h2, hinv2, hreg2⟩ := AddAll_registers keys2 e hinv hk2
  obtain ⟨_, _, hmono1⟩ := AddAll_mono keys1 e e1 h1
  obtain ⟨_, _, hmono2⟩ := AddAll_mono keys2 e e2 h2
  refine ⟨e1, h1, ?_⟩
  rw [h2]
  congr 1
  have hregs : e2.registers = e1.registers := by
    apply List.ext_getElem?
    intro i
    by_cases hi : i < 2 ^ w
    · obtain ⟨a0, a, ha0, ha, hale, haor⟩ := hreg1 i hi
      obtain ⟨b0, b, hb0, hb, hble, hbor⟩ := hreg2 i hi
      rw [ha0] at hb0
      have h00 : a0 = b0 := Option.some.inj hb0
      subst h00
      obtain ⟨a', ha', hle1⟩ := hmono1 i a0 ha0
      obtain ⟨b', hb', hle2⟩ := hmono2 i a0 ha0
      rw [ha] at ha'
      rw [hb] at hb'
      have e1' : a = a' := Option.some.inj ha'
      have e2' : b = b' := Option.some.inj hb'
      subst e1'
      subst e2'
      have hab : a ≤ b := by
        rcases haor with heq | ⟨k, hk, hki, hkr⟩
        · rw [heq]
          exact hle2
        · obtain ⟨r, hr, hrb⟩ := hble k ((hsame k).1 hk) hki
          rw [hkr] at hr
          rw [Option.some.inj hr]
          exact hrb
      have hba : b ≤ a := by
        rcases hbor with heq | ⟨k, hk, hki, hkr⟩
        · rw [heq]
          exact hle1
        · obtain ⟨r, hr, hra⟩ := hale k ((hsame k).2 hk) hki
          rw [hkr] at hr
          rw [Option.some.inj hr]
          exact hra
      rw [ha, hb, le_antisymm hab hba]
    · have hl1 : e1.registers.length ≤ i := by
        have := hinv1.2.2.2.1
        omega
      have hl2 : e2.registers.length ≤ i := by
        have := hinv2.2.2.2.1
        omega
      rw [List.getElem?_eq_none hl1, List.getElem?_eq_none hl2]
  have hw : e2.registerWidth = e1.registerWidth := by
    rw [hinv1.2.2.1, hinv2.2.2.1]
  cases e1
  cases e2
  simp only at hregs hw
  rw [hregs, hw]

/-- C18. The state of the estimator depends only on the set of keys added: for a
state reachable from `NewHLL(w)` (the fresh estimator in particular) and two
sequences of 64-bit keys with the same members, in any order and with any
multiplicities, both sequences of `Add` calls return the same state, so the same
register array and the same `Count()`.  In particular `Add(a); Add(b)` gives the
state of `Add(b); Add(a)`, and adding a key a second time changes nothing. -/
theorem state_depends_on_key_set (w : Nat) (e : HLLEstimator) (keys1 keys2 : List Nat)
    (hr : Reachable w e) (hk1 : ∀ k ∈ keys1, k < 2 ^ 64)
    (hsame : ∀ k, k ∈ keys1 ↔ k ∈ keys2) :
    (∃ e1 e2, AddAll e keys1 = some e1 ∧ AddAll e keys2 = some e2 ∧
      e1.registers = e2.registers ∧ e1 = e2 ∧ Count e1 = Count e2) ∧
    (∀ a b, a < 2 ^ 64 → b < 2 ^ 64 →
      ∃ e1, AddAll e [a, b] = some e1 ∧ AddAll e [b, a] = some e1) ∧
    (∀ a, a < 2 ^ 64 → ∃ e1, Add e a = some e1 ∧ Add e1 a = some e1) := by
  have hinv := Reachable_inv hr
  refine ⟨?_, ?_, ?_⟩
  · obtain ⟨e1, h1, h2⟩ := AddAll_same_keys e hinv keys1 keys2 hk1 hsame
    exact ⟨e1, e1, h1, h2, rfl, rfl, rfl⟩
  · intro a b ha hb
    apply AddAll_same_keys e hinv [a, b] [b, a]
    · intro k hk
      rcases List.mem_cons.1 hk with h | h
      · rw [h]; exact ha
      · rw [List.mem_singleton.1 h]; exact hb
    · intro k
      simp only [List.mem_cons, List.mem_singleton, List.not_mem_nil, or_false]
      exact or_comm
  · intro a ha
    obtain ⟨e1, h1, h2⟩ := AddAll_same_keys e hinv [a] [a, a]
      (fun k hk => by rw [List.mem_singleton.1 hk]; exact ha)
      (fun k => by simp only [List.mem_cons, List.mem_singleton, List.not_mem_nil, or_false,
        or_self])
    cases hadd : Add e a with
    | none =>
      simp only [AddAll, hadd] at h1
      exact Option.noConfusion h1
    | some e2 =>
      simp only [AddAll, hadd] at h1 h2
      have he : e2 = e1 := Option.some.inj h1
      subst he
      refine ⟨e2, rfl, ?_⟩
      cases hadd2 : Add e2 a with
      | none =>
        rw [hadd2] at h2
        exact Option.noConfusion h2
      | some e3 =>
        rw [hadd2] at h2
        exact h2

/-- The key sequences `2^63, 2^62, 2^63` and `2^62, 2^63` on the fresh width-8
estimator. -/
theorem state_depends_on_key_set_witness :
    (∃ e1 e2, AddAll ⟨8, List.replicate (1 <<< 8) 0⟩ [2 ^ 63, 2 ^ 62, 2 ^ 63] = some e1 ∧
      AddAll ⟨8, List.replicate (1 <<< 8) 0⟩ [2 ^ 62, 2 ^ 63] = some e2 ∧
      e1.registers = e2.registers ∧ e1 = e2 ∧ Count e1 = Count e2) ∧
    (∀ a b, a < 2 ^ 64 → b < 2 ^ 64 →
      ∃ e1, AddAll ⟨8, List.replicate (1 <<< 8) 0⟩ [a, b] = some e1 ∧
        AddAll ⟨8, List.replicate (1 <<< 8) 0⟩ [b, a] = some e1) ∧
    (∀ a, a < 2 ^ 64 →
      ∃ e1, Add ⟨8, List.replicate (1 <<< 8) 0⟩ a = some e1 ∧ Add e1 a = some e1) :=
  state_depends_on_key_set 8 ⟨8, List.replicate (1 <<< 8) 0⟩ [2 ^ 63, 2 ^ 62, 2 ^ 63]
    [2 ^ 62, 2 ^ 63] (Reachable.fresh _ rfl)
    (fun k hk => by
      simp only [List.mem_cons, List.mem_singleton, List.not_mem_nil, or_false] at hk
      rcases hk with h | h | h <;> rw [h] <;> decide)
    (fun k => by
      simp only [List.mem_cons, List.mem_singleton, List.not_mem_nil, or_false]
      tauto)

/-! ## Bounds on the sum of the powers and on the raw estimate -/

theorem pow_sum_le_length (l : List Nat) :
    (l.map (fun (i : Nat) => (2 : ℚ) ^ (-(i : ℤ)))).sum ≤ (l.length : ℚ) := by
  induction l with
  | nil => simp
  | cons a l ih =>
    rw [List.map_cons, List.sum_cons, List.length_cons]
    have ha : (2 : ℚ) ^ (-(a : ℤ)) ≤ 1 := zpow_le_one_of_nonpos₀ (by norm_num) (by omega)
    push_cast
    linarith

theorem pow_sum_ge_of_le (l : List Nat) (B : Nat) (h : ∀ x ∈ l, x ≤ B) :
    (l.length : ℚ) * (2 : ℚ) ^ (-(B : ℤ)) ≤
      (l.map (fun (i : Nat) => (2 : ℚ) ^ (-(i : ℤ)))).sum := by
  induction l with
  | nil => simp
  | cons a l ih =>
    rw [List.map_cons, List.sum_cons, List.length_cons]
    have ha : (2 : ℚ) ^ (-(B : ℤ)) ≤ (2 : ℚ) ^ (-(a : ℤ)) :=
      zpow_le_zpow_right₀ (by norm_num) (by
        have := h a (List.mem_cons_self _ _)
        omega)
    have hl := ih (fun x hx => h x (List.mem_cons_of_mem _ hx))
    push_cast
    linarith

theorem pow_sum_nonneg (l : List Nat) :
    0 ≤ (l.map (fun (i : Nat) => (2 : ℚ) ^ (-(i : ℤ)))).sum := by
  induction l with
  | nil => simp
  | cons a l ih =>
    rw [List.map_cons, List.sum_cons]
    have ha : (0 : ℚ) < (2 : ℚ) ^ (-(a : ℤ)) := by positivity
    linarith

theorem pow_sum_ge_mem (l : List Nat) (x : Nat) (hx : x ∈ l) :
    (2 : ℚ) ^ (-(x : ℤ)) ≤ (l.map (fun (i : Nat) => (2 : ℚ) ^ (-(i : ℤ)))).sum := by
  induction l with
  | nil => exact absurd hx (List.not_mem_nil x)
  | cons a l ih =>
    rw [List.map_cons, List.sum_cons]
    rcases List.mem_cons.1 hx with heq | hmem
    · subst heq
      have := pow_sum_nonneg l
      linarith
    · have h1 := ih hmem
      have ha : (0 : ℚ) < (2 : ℚ) ^ (-(a : ℤ)) := by positivity
      linarith

theorem HLLConstant_ge (M : ℚ) (hM : 256 ≤ M) : 0.7 ≤ 0.7213 / (1 + 1.079 / M) := by
  have hM0 : (0 : ℚ) < M := by linarith
  have hd : (0 : ℚ) < 1 + 1.079 / M := by positivity
  rw [le_div_iff₀ hd]
  have h1 : 1.079 / M ≤ 1.079 / 256 :=
    div_le_div_of_nonneg_left (by norm_num) (by norm_num) hM
  norm_num at h1 ⊢
  linarith

/-- With a positive lower bound `c` on the sum of the powers, the raw estimate is at
most `0.7213 * m * m / c`. -/
theorem estimate_le_of_sum_ge (e : HLLEstimator) (h20 : e.registerWidth ≤ 20) (c : ℚ)
    (hc : 0 < c)
    (hS : c ≤ (e.registers.map (fun (i : Nat) => (2 : ℚ) ^ (-(i : ℤ)))).sum) :
    estimate e ≤ 0.7213 * (2 : ℚ) ^ e.registerWidth * (2 : ℚ) ^ e.registerWidth / c := by
  rw [estimate_eq e h20]
  have hM : (0 : ℚ) < (2 : ℚ) ^ e.registerWidth := by positivity
  obtain ⟨hc0, hcle⟩ := HLLConstant_le ((2 : ℚ) ^ e.registerWidth) hM
  have h1 : 1 / (e.registers.map (fun (i : Nat) => (2 : ℚ) ^ (-(i : ℤ)))).sum ≤ 1 / c :=
    one_div_le_one_div_of_le hc hS
  have h2 : 0.7213 / (1 + 1.079 / (2 : ℚ) ^ e.registerWidth) * (2 : ℚ) ^ e.registerWidth *
      (2 : ℚ) ^ e.registerWidth ≤
      0.7213 * (2 : ℚ) ^ e.registerWidth * (2 : ℚ) ^ e.registerWidth := by
    have := mul_le_mul_of_nonneg_right hcle (le_of_lt hM)
    exact mul_le_mul_of_nonneg_right this (le_of_lt hM)
  have h3 : (0 : ℚ) ≤ 1 / c := by positivity
  have h4 : (0 : ℚ) ≤ 0.7213 / (1 + 1.079 / (2 : ℚ) ^ e.registerWidth) *
      (2 : ℚ) ^ e.registerWidth * (2 : ℚ) ^ e.registerWidth := by positivity
  calc _ ≤ 0.7213 / (1 + 1.079 / (2 : ℚ) ^ e.registerWidth) * (2 : ℚ) ^ e.registerWidth *
        (2 : ℚ) ^ e.registerWidth * (1 / c) := mul_le_mul_of_nonneg_left h1 h4
    _ ≤ 0.7213 * (2 : ℚ) ^ e.registerWidth * (2 : ℚ) ^ e.registerWidth * (1 / c) :=
        mul_le_mul_of_nonneg_right h2 h3
    _ = 0.7213 * (2 : ℚ) ^ e.registerWidth * (2 : ℚ) ^ e.registerWidth / c := by
        rw [mul_one_div]

/-- On a state of an estimator of width `w` the raw estimate is at least
`0.7 * 2 ^ w`. -/
theorem estimate_ge {w : Nat} (e : HLLEstimator) (hinv : Inv w e) :
    0.7 * (2 : ℚ) ^ w ≤ estimate e := by
  obtain ⟨h8, h20, hw, hlen, _⟩ := hinv
  subst hw
  rw [estimate_eq e h20]
  have hM : (256 : ℚ) ≤ (2 : ℚ) ^ e.registerWidth := two_pow_ge h8
  have hM0 : (0 : ℚ) < (2 : ℚ) ^ e.registerWidth := by linarith
  have ha := HLLConstant_ge _ hM
  have hne : e.registers ≠ [] := by
    intro h
    rw [h] at hlen
    have : 0 < 2 ^ e.registerWidth := by positivity
    simp only [List.length_nil] at hlen
    omega
  have hSle : (e.registers.map (fun (i : Nat) => (2 : ℚ) ^ (-(i : ℤ)))).sum ≤
      (2 : ℚ) ^ e.registerWidth := by
    have := pow_sum_le_length e.registers
    rw [hlen] at this
    push_cast at this
    exact this
  have hSpos : 0 < (e.registers.map (fun (i : Nat) => (2 : ℚ) ^ (-(i : ℤ)))).sum := by
    obtain ⟨x, hx⟩ := List.exists_mem_of_ne_nil _ hne
    have h1 := pow_sum_ge_mem e.registers x hx
    have h2 : (0 : ℚ) < (2 : ℚ) ^ (-(x : ℤ)) := by positivity
    linarith
  have h1 : 1 / (2 : ℚ) ^ e.registerWidth ≤
      1 / (e.registers.map (fun (i : Nat) => (2 : ℚ) ^ (-(i : ℤ)))).sum :=
    one_div_le_one_div_of_le hSpos hSle
  have h4 : (0 : ℚ) ≤ 0.7213 / (1 + 1.079 / (2 : ℚ) ^ e.registerWidth) *
      (2 : ℚ) ^ e.registerWidth * (2 : ℚ) ^ e.registerWidth := by positivity
  have h5 := mul_le_mul_of_nonneg_left h1 h4
  have h6 : 0.7213 / (1 + 1.079 / (2 : ℚ) ^ e.registerWidth) * (2 : ℚ) ^ e.registerWidth *
      (2 : ℚ) ^ e.registerWidth * (1 / (2 : ℚ) ^ e.registerWidth) =
      0.7213 / (1 + 1.079 / (2 : ℚ) ^ e.registerWidth) * (2 : ℚ) ^ e.registerWidth := by
    field_simp
    ring
  rw [h6] at h5
  have h7 := mul_le_mul_of_nonneg_right ha (le_of_lt hM0)
  linarith

/-! ## The value that Count floors -/

theorem linear_value_nonneg (M z : ℝ) (hz : 1 ≤ z) (hzM : z ≤ M) :
    0 ≤ M * Real.log (M / z) := by
  have hz0 : 0 < z := by linarith
  have h1 : 1 ≤ M / z := by
    rw [le_div_iff₀ hz0]
    linarith
  exact mul_nonneg (by linarith) (Real.log_nonneg h1)

theorem linear_value_lt (M z : ℝ) (hz : 1 ≤ z) (hzM : z ≤ M) :
    M * Real.log (M / z) < M * M := by
  have hz0 : 0 < z := by linarith
  have hM0 : 0 < M := by linarith
  have hq : 0 < M / z := div_pos hM0 hz0
  have h1 := Real.log_le_sub_one_of_pos hq
  have h2 : M / z ≤ M := div_le_self (le_of_lt hM0) hz
  have h3 : Real.log (M / z) < M := by linarith
  exact mul_lt_mul_of_pos_left h3 hM0

theorem linear_value_ge_one (M z : ℝ) (hz : 1 ≤ z) (hzM : z + 1 ≤ M) :
    1 ≤ M * Real.log (M / z) := by
  have hz0 : 0 < z := by linarith
  have hM0 : 0 < M := by linarith
  have hq : 0 < M / z := div_pos hM0 hz0
  have h1 := Real.one_sub_inv_le_log_of_pos hq
  have he : 1 - (M / z)⁻¹ = (M - z) / M := by
    field_simp
  rw [he] at h1
  have h2 := mul_le_mul_of_nonneg_left h1 (le_of_lt hM0)
  have h3 : M * ((M - z) / M) = M - z := by
    field_simp
  rw [h3] at h2
  linarith

theorem CountValue_eq (e : HLLEstimator) (h20 : e.registerWidth ≤ 20) :
    CountValue e =
      if estimate e < 5 / 2 * (2 : ℚ) ^ e.registerWidth then
        if e.registers.count 0 ≠ 0 then
          (2 : ℝ) ^ e.registerWidth *
            Real.log ((2 : ℝ) ^ e.registerWidth / (e.registers.count 0 : ℝ))
        else ((estimate e : ℚ) : ℝ)
      else ((estimate e : ℚ) : ℝ) := by
  simp only [CountValue, registerCount_eq h20, countZeros_eq]
  push_cast
  rfl

/-- `Count` is the conversion of `CountValue`. -/
theorem Count_eq_uint64Floor (e : HLLEstimator) : Count e = uint64Floor (CountValue e) := by
  unfold Count CountValue
  simp only
  split
  · split
    · rfl
    · rw [uint64Floor_ratCast]
  · rw [uint64Floor_ratCast]

/-- Where `CountValue` is below `2 ^ 64`, `Count` is its floor. -/
theorem Count_eq_floor (e : HLLEstimator) (h : CountValue e < 2 ^ 64) :
    Count e = ⌊CountValue e⌋₊ := by
  rw [Count_eq_uint64Floor, uint64Floor_of_lt h]

theorem count_zero_lt_of_mem_ne (l : List Nat) (x : Nat) (hx : x ∈ l) (hx0 : x ≠ 0) :
    l.count 0 < l.length := by
  have hle := List.count_le_length 0 l
  have hne : l.count 0 ≠ l.length := by
    intro h
    have := (List.count_eq_length.1 h) x hx
    exact hx0 this.symm
  omega

/-- On a state of an estimator of width `w` with a non-zero register the value
that `Count` floors is at least 1. -/
theorem CountValue_ge_one {w : Nat} (e : HLLEstimator) (hinv : Inv w e) (x : Nat)
    (hx : x ∈ e.registers) (hx0 : x ≠ 0) : 1 ≤ CountValue e := by
  have hE := estimate_ge e hinv
  obtain ⟨h8, h20, hw, hlen, _⟩ := hinv
  subst hw
  have hM : (256 : ℚ) ≤ (2 : ℚ) ^ e.registerWidth := two_pow_ge h8
  have hE1 : (1 : ℚ) ≤ estimate e := by linarith
  have hE2 : (1 : ℝ) ≤ ((estimate e : ℚ) : ℝ) := by exact_mod_cast hE1
  rw [CountValue_eq e h20]
  split
  · split
    · rename_i hz
      have hlt := count_zero_lt_of_mem_ne e.registers x hx hx0
      rw [hlen] at hlt
      apply linear_value_ge_one
      · have : 1 ≤ e.registers.count 0 := Nat.one_le_iff_ne_zero.2 hz
        exact_mod_cast this
      · have : e.registers.count 0 + 1 ≤ 2 ^ e.registerWidth := hlt
        exact_mod_cast this
    · exact hE2
  · exact hE2

/-- C19. `Count` is zero only for an untouched estimator (with the `float64`
operations read as exact arithmetic): in a state reachable from `NewHLL(w)`,
`Count() = 0` exactly when all registers are zero, which is exactly the state
`NewHLL(w)` returns; and after an `Add` of a 64-bit key `Count()` is at least 1,
the value it floors being at least 1. -/
theorem Count_zero_iff_untouched (w : Nat) (e : HLLEstimator) (hr : Reachable w e) :
    (Count e = 0 ↔ ∀ x ∈ e.registers, x = 0) ∧
    ((∀ x ∈ e.registers, x = 0) ↔ NewHLL w = some e) ∧
    (∀ key e1, key < 2 ^ 64 → Add e key = some e1 →
      1 ≤ Count e1 ∧ (1 : ℝ) ≤ CountValue e1) := by
  have hinv := Reachable_inv hr
  obtain ⟨h8, h20, hw, hlen, _⟩ := id hinv
  have hfresh : (∀ x ∈ e.registers, x = 0) ↔ NewHLL w = some e := by
    rw [NewHLL_eq h8 h20]
    constructor
    · intro hall
      have hrep : e.registers = List.replicate (2 ^ w) 0 :=
        List.eq_replicate_iff.2 ⟨hlen, hall⟩
      cases e
      simp only at hrep hw
      rw [hrep, hw]
    · intro h
      have he := Option.some.inj h
      rw [← he]
      intro x hx
      exact List.eq_of_mem_replicate hx
  have hpos : ∀ e2 : HLLEstimator, Inv w e2 → ∀ x ∈ e2.registers, x ≠ 0 → 1 ≤ Count e2 := by
    intro e2 hinv2 x hx hx0
    rw [Count_eq_uint64Floor]
    exact one_le_uint64Floor (CountValue_ge_one e2 hinv2 x hx hx0)
  refine ⟨?_, hfresh, ?_⟩
  · constructor
    · intro hc
      by_contra hne
      push_neg at hne
      obtain ⟨x, hx, hx0⟩ := hne
      have := hpos e hinv x hx hx0
      omega
    · intro hall
      have he := Option.some.inj ((NewHLL_eq h8 h20).symm.trans (hfresh.1 hall))
      rw [← he, Count_linear _ h20 (estimate_fresh h20), LinearCount_fresh h20]
      simp only [List.count_replicate_self]
      positivity
  · intro key e1 hk hadd
    have hinv1 := Add_inv hinv hk hadd
    subst hw
    obtain ⟨rank, old, hrank, hold, hadd2⟩ := Add_eq e key h8 h20 hlen hk
    obtain ⟨r2, hr2, hpos2, _, _⟩ := @keyRank_bounds e.registerWidth key h8 h20
    rw [hrank] at hr2
    have hr : rank = r2 := Option.some.inj hr2
    subst hr
    rw [hadd] at hadd2
    have he := Option.some.inj hadd2
    have hidx : key >>> (64 - e.registerWidth) < e.registers.length := by
      rw [hlen]
      exact index_lt (by omega) hk
    have hmem : max old rank ∈ e1.registers := by
      rw [he]
      simp only
      exact List.mem_iff_getElem.2 ⟨key >>> (64 - e.registerWidth),
        by rw [List.length_set]; exact hidx, by rw [List.getElem_set_self]⟩
    have hne : max old rank ≠ 0 := by
      have := le_max_right old rank
      omega
    exact ⟨hpos e1 hinv1 (max old rank) hmem hne,
      CountValue_ge_one e1 hinv1 (max old rank) hmem hne⟩

set_option maxRecDepth 8000 in
/-- `Count` on the fresh width-8 estimator and after the key `2 ^ 63`. -/
theorem Count_zero_iff_untouched_witness :
    (Count ⟨8, List.replicate (1 <<< 8) 0⟩ = 0 ↔
      ∀ x ∈ List.replicate (1 <<< 8) 0, x = 0) ∧
    (2 ^ 63 < 2 ^ 64 ∧
      Add ⟨8, List.replicate (1 <<< 8) 0⟩ (2 ^ 63) =
        some ⟨8, (List.replicate (1 <<< 8) 0).set 128 57⟩ ∧
      1 ≤ Count ⟨8, (List.replicate (1 <<< 8) 0).set 128 57⟩ ∧
      (1 : ℝ) ≤ CountValue ⟨8, (List.replicate (1 <<< 8) 0).set 128 57⟩) :=
  have h : Add ⟨8, List.replicate (1 <<< 8) 0⟩ (2 ^ 63) =
      some ⟨8, (List.replicate (1 <<< 8) 0).set 128 57⟩ := by rfl
  ⟨(Count_zero_iff_untouched 8 ⟨8, List.replicate (1 <<< 8) 0⟩ (Reachable.fresh _ rfl)).1,
    by decide, h,
    (Count_zero_iff_untouched 8 ⟨8, List.replicate (1 <<< 8) 0⟩ (Reachable.fresh _ rfl)).2.2
      (2 ^ 63) _ (by decide) h⟩

/-! ## The range of the value that Count floors -/

/-- In a state of an estimator of width `w` the raw estimate is below `2 ^ 65`. -/
theorem estimate_lt_two_pow_65 {w : Nat} (e : HLLEstimator) (hinv : Inv w e) :
    estimate e < (2 : ℚ) ^ 65 := by
  obtain ⟨h8, h20, hw, hlen, hreg⟩ := hinv
  subst hw
  have hM0 : (0 : ℚ) < (2 : ℚ) ^ e.registerWidth := by positivity
  have hB0 : (0 : ℚ) < (2 : ℚ) ^ (64 - e.registerWidth + 1) := by positivity
  have hS := pow_sum_ge_of_le e.registers (64 - e.registerWidth + 1) hreg
  rw [hlen, zpow_neg, zpow_natCast] at hS
  push_cast at hS
  have hc : (0 : ℚ) < (2 : ℚ) ^ e.registerWidth * ((2 : ℚ) ^ (64 - e.registerWidth + 1))⁻¹ := by
    positivity
  have hE := estimate_le_of_sum_ge e h20 _ hc hS
  have hpow : (2 : ℚ) ^ e.registerWidth * (2 : ℚ) ^ (64 - e.registerWidth + 1) = 2 ^ 65 := by
    rw [← pow_add]
    congr 1
    omega
  have hval : 0.7213 * (2 : ℚ) ^ e.registerWidth * (2 : ℚ) ^ e.registerWidth /
      ((2 : ℚ) ^ e.registerWidth * ((2 : ℚ) ^ (64 - e.registerWidth + 1))⁻¹) =
      0.7213 * ((2 : ℚ) ^ e.registerWidth * (2 : ℚ) ^ (64 - e.registerWidth + 1)) := by
    field_simp
    ring
  rw [hval, hpow] at hE
  have : (0 : ℚ) < (2 : ℚ) ^ 65 := by positivity
  linarith

/-- In a state of an estimator of width `w` with a register of at most `64 - 2 * w`
the raw estimate is below `2 ^ 64`. -/
theorem estimate_lt_two_pow_64 {w : Nat} (e : HLLEstimator) (hinv : Inv w e) (x : Nat)
    (hx : x ∈ e.registers) (hxle : x ≤ 64 - 2 * w) : estimate e < (2 : ℚ) ^ 64 := by
  obtain ⟨h8, h20, hw, hlen, hreg⟩ := hinv
  subst hw
  have hS := pow_sum_ge_mem e.registers x hx
  have hmono : (2 : ℚ) ^ (-((64 - 2 * e.registerWidth : Nat) : ℤ)) ≤ (2 : ℚ) ^ (-(x : ℤ)) :=
    zpow_le_zpow_right₀ (by norm_num) (by omega)
  have hS2 := le_trans hmono hS
  rw [zpow_neg, zpow_natCast] at hS2
  have hc : (0 : ℚ) < ((2 : ℚ) ^ (64 - 2 * e.registerWidth))⁻¹ := by positivity
  have hE := estimate_le_of_sum_ge e h20 _ hc hS2
  have hpow : (2 : ℚ) ^ e.registerWidth * (2 : ℚ) ^ e.registerWidth *
      (2 : ℚ) ^ (64 - 2 * e.registerWidth) = 2 ^ 64 := by
    rw [← pow_add, ← pow_add]
    congr 1
    omega
  have hval : 0.7213 * (2 : ℚ) ^ e.registerWidth * (2 : ℚ) ^ e.registerWidth /
      ((2 : ℚ) ^ (64 - 2 * e.registerWidth))⁻¹ =
      0.7213 * ((2 : ℚ) ^ e.registerWidth * (2 : ℚ) ^ e.registerWidth *
        (2 : ℚ) ^ (64 - 2 * e.registerWidth)) := by
    field_simp
    ring
  rw [hval, hpow] at hE
  have : (0 : ℚ) < (2 : ℚ) ^ 64 := by positivity
  linarith

/-- C14, as amended. In every state reachable from `NewHLL(w)` by `Add` calls
the real value that `Count` converts (`CountValue`: the linear counting value
`m * ln(m / zeroCount)` or the raw estimate `E`) is non-negative and strictly
less than `2 ^ 65`; it is strictly less than `2 ^ 64`, so that the conversion to
`uint64` is exact and `Count` is its floor, whenever `Count` takes the linear
counting branch or some register is at most `64 - 2 * w`. -/
theorem CountValue_range (w : Nat) (e : HLLEstimator) (hr : Reachable w e) :
    (CountValue e < 2 ^ 64 → Count e = ⌊CountValue e⌋₊) ∧
    (0 : ℝ) ≤ CountValue e ∧ CountValue e < 2 ^ 65 ∧
    (((estimate e < 5 / 2 * (2 : ℚ) ^ w ∧ countZeros e ≠ 0) ∨
        ∃ x ∈ e.registers, x ≤ 64 - 2 * w) → CountValue e < 2 ^ 64) := by
  have hinv := Reachable_inv hr
  have hge := estimate_ge e hinv
  have h65 := estimate_lt_two_pow_65 e hinv
  obtain ⟨h8, h20, hw, hlen, hreg⟩ := id hinv
  subst hw
  have hM : (256 : ℚ) ≤ (2 : ℚ) ^ e.registerWidth := two_pow_ge h8
  have hE0 : (0 : ℝ) ≤ ((estimate e : ℚ) : ℝ) := by
    have : (0 : ℚ) ≤ estimate e := by linarith
    exact_mod_cast this
  have hE65 : ((estimate e : ℚ) : ℝ) < 2 ^ 65 := by exact_mod_cast h65
  have hMR : (2 : ℝ) ^ e.registerWidth ≤ 2 ^ 20 := pow_le_pow_right₀ (by norm_num) h20
  have hMR0 : (0 : ℝ) < (2 : ℝ) ^ e.registerWidth := by positivity
  have hlin : e.registers.count 0 ≠ 0 →
      0 ≤ (2 : ℝ) ^ e.registerWidth *
        Real.log ((2 : ℝ) ^ e.registerWidth / (e.registers.count 0 : ℝ)) ∧
      (2 : ℝ) ^ e.registerWidth *
        Real.log ((2 : ℝ) ^ e.registerWidth / (e.registers.count 0 : ℝ)) < 2 ^ 64 := by
    intro hz
    have h1 : (1 : ℝ) ≤ (e.registers.count 0 : ℝ) := by
      have : 1 ≤ e.registers.count 0 := Nat.one_le_iff_ne_zero.2 hz
      exact_mod_cast this
    have h2 : (e.registers.count 0 : ℝ) ≤ (2 : ℝ) ^ e.registerWidth := by
      have := List.count_le_length 0 e.registers
      rw [hlen] at this
      exact_mod_cast this
    refine ⟨linear_value_nonneg _ _ h1 h2, ?_⟩
    have h3 := linear_value_lt _ _ h1 h2
    have h4 : (2 : ℝ) ^ e.registerWidth * (2 : ℝ) ^ e.registerWidth ≤ 2 ^ 20 * 2 ^ 20 :=
      mul_le_mul hMR hMR (le_of_lt hMR0) (by positivity)
    have h5 : (2 : ℝ) ^ 20 * 2 ^ 20 < 2 ^ 64 := by norm_num
    linarith
  refine ⟨Count_eq_floor e, ?_, ?_, ?_⟩
  · rw [CountValue_eq e h20]
    split
    · split
      · rename_i hz
        exact (hlin hz).1
      · exact hE0
    · exact hE0
  · rw [CountValue_eq e h20]
    split
    · split
      · rename_i hz
        have := (hlin hz).2
        have h6 : (2 : ℝ) ^ 64 < 2 ^ 65 := by norm_num
        linarith
      · exact hE65
    · exact hE65
  · intro hcond
    rw [CountValue_eq e h20]
    rcases hcond with ⟨hlt, hz⟩ | ⟨x, hx, hxle⟩
    · rw [countZeros_eq] at hz
      rw [if_pos hlt, if_pos hz]
      exact (hlin hz).2
    · have h64 := estimate_lt_two_pow_64 e hinv x hx hxle
      have hE64 : ((estimate e : ℚ) : ℝ) < 2 ^ 64 := by exact_mod_cast h64
      split
      · split
        · rename_i hz
          exact (hlin hz).2
        · exact hE64
      · exact hE64

/-- The range of the value that `Count` floors on the fresh width-8 estimator,
where every register is 0. -/
theorem CountValue_range_witness :
    Count ⟨8, List.replicate (1 <<< 8) 0⟩ = ⌊CountValue ⟨8, List.replicate (1 <<< 8) 0⟩⌋₊ ∧
    (0 : ℝ) ≤ CountValue ⟨8, List.replicate (1 <<< 8) 0⟩ ∧
    CountValue ⟨8, List.replicate (1 <<< 8) 0⟩ < 2 ^ 65 ∧
    CountValue ⟨8, List.replicate (1 <<< 8) 0⟩ < 2 ^ 64 :=
  have h := CountValue_range 8 ⟨8, List.replicate (1 <<< 8) 0⟩ (Reachable.fresh _ rfl)
  ⟨h.1 (h.2.2.2 (Or.inr ⟨0, by decide, by decide⟩)), h.2.1, h.2.2.1,
    h.2.2.2 (Or.inr ⟨0, by decide, by decide⟩)⟩

theorem zero_remainder_keys_lt :
    ∀ k ∈ (List.range 256).map (fun i => i <<< 56), k < 2 ^ 64 := by
  intro k hk
  obtain ⟨i, hi, rfl⟩ := List.mem_map.1 hk
  have hi2 : i < 256 := List.mem_range.1 hi
  rw [Nat.shiftLeft_eq]
  omega

set_option maxRecDepth 1000000 in
theorem AddAll_zero_remainder_keys :
    AddAll ⟨8, List.replicate (1 <<< 8) 0⟩ ((List.range 256).map (fun i => i <<< 56)) =
      some ⟨8, List.replicate 256 57⟩ := by
  decide

/-- The counterexample to C14 as stated: at width 8, after the 256 keys `i << 56`
for `i = 0..255` (each with remainder 0, so every register is 57), the state is
reachable, `Count` does not take the linear counting branch, and the value it
floors, the raw estimate `0.7213 / (1 + 1.079/256) * 2^65`, is not below `2 ^ 64`. -/
theorem CountValue_not_below_two_pow_64 :
    ∃ e0 e, NewHLL 8 = some e0 ∧
      AddAll e0 ((List.range 256).map (fun i => i <<< 56)) = some e ∧
      Reachable 8 e ∧ e.registers = List.replicate 256 57 ∧
      CountValue e = ((estimate e : ℚ) : ℝ) ∧ ¬ CountValue e < 2 ^ 64 := by
  have hall := AddAll_zero_remainder_keys
  have hreach : Reachable 8 ⟨8, List.replicate 256 57⟩ :=
    AddAll_reachable _ _ _ (Reachable.fresh _ rfl) zero_remainder_keys_lt hall
  have hest : estimate ⟨8, List.replicate 256 57⟩ =
      0.7213 / (1 + 1.079 / (2 : ℚ) ^ 8) * (2 : ℚ) ^ 8 * (2 : ℚ) ^ 8 *
        (1 / (256 * (2 : ℚ) ^ (-(57 : ℤ)))) := by
    rw [estimate_eq _ (by decide)]
    simp only [List.map_replicate, List.sum_replicate, nsmul_eq_mul]
    norm_num
  have hbig : (2 : ℚ) ^ 64 ≤ estimate ⟨8, List.replicate 256 57⟩ := by
    rw [hest]
    norm_num
  have hnot : ¬ estimate ⟨8, List.replicate 256 57⟩ < 5 / 2 * (2 : ℚ) ^ 8 := by
    have : (5 : ℚ) / 2 * 2 ^ 8 < 2 ^ 64 := by norm_num
    intro h
    linarith
  have hval : CountValue ⟨8, List.replicate 256 57⟩ =
      ((estimate ⟨8, List.replicate 256 57⟩ : ℚ) : ℝ) := by
    rw [CountValue_eq _ (by decide)]
    simp only
    rw [if_neg hnot]
  refine ⟨_, _, rfl, hall, hreach, rfl, hval, ?_⟩
  rw [hval, not_lt]
  exact_mod_cast hbig

/-! ## Count is not monotone -/

theorem half_keys_lt :
    ∀ k ∈ (List.range 255).map (fun i => (i <<< 56) ||| (1 <<< 55)), k < 2 ^ 64 := by
  intro k hk
  obtain ⟨i, hi, rfl⟩ := List.mem_map.1 hk
  have hi2 : i < 255 := List.mem_range.1 hi
  have hc : 1 <<< 55 < 2 ^ 56 := by decide
  rw [Nat.shiftLeft_eq i, Nat.mul_comm, ← Nat.mul_add_lt_is_or hc]
  have : 1 <<< 55 = 2 ^ 55 := by decide
  omega

set_option maxRecDepth 1000000 in
theorem AddAll_half_keys :
    AddAll ⟨8, List.replicate (1 <<< 8) 0⟩
      ((List.range 255).map (fun i => (i <<< 56) ||| (1 <<< 55))) =
      some ⟨8, List.replicate 255 1 ++ [0]⟩ := by
  decide

set_option maxRecDepth 1000000 in
theorem Add_last_half_key :
    Add ⟨8, List.replicate 255 1 ++ [0]⟩ ((255 <<< 56) ||| (1 <<< 55)) =
      some ⟨8, List.replicate 256 1⟩ := by
  decide

theorem log_256_bounds : (1419 : ℝ) ≤ 256 * Real.log 256 ∧ 256 * Real.log 256 < 1420 := by
  have h : Real.log 256 = 8 * Real.log 2 := by
    rw [show (256 : ℝ) = 2 ^ 8 by norm_num, Real.log_pow]
    norm_num
  have h1 := Real.log_two_gt_d9
  have h2 := Real.log_two_lt_d9
  rw [h]
  constructor <;> linarith

/-- C20. `Count` is not monotone under `Add`.  At width 8, after the 255 keys
`(i << 56) | (1 << 55)` for `i = 0..254` the registers 0..254 are 1 and register
255 is 0, and `Count()` is `floor(256 * ln 256) = 1419` by linear counting; the
key `(255 << 56) | (1 << 55)` fills the last register, and `Count()` becomes
`floor(E) = 367`, strictly smaller. -/
theorem Count_not_monotone :
    ∃ e0 e e1, NewHLL 8 = some e0 ∧
      AddAll e0 ((List.range 255).map (fun i => (i <<< 56) ||| (1 <<< 55))) = some e ∧
      Reachable 8 e ∧ (255 <<< 56) ||| (1 <<< 55) < 2 ^ 64 ∧
      Add e ((255 <<< 56) ||| (1 <<< 55)) = some e1 ∧
      e.registers = List.replicate 255 1 ++ [0] ∧ e1.registers = List.replicate 256 1 ∧
      Count e = 1419 ∧ Count e1 = 367 ∧ Count e1 < Count e := by
  have hall := AddAll_half_keys
  have hadd := Add_last_half_key
  have hreach : Reachable 8 ⟨8, List.replicate 255 1 ++ [0]⟩ :=
    AddAll_reachable _ _ _ (Reachable.fresh _ rfl) half_keys_lt hall
  have hcount0 : (List.replicate 255 1 ++ [0]).count 0 = 1 := by
    rw [List.count_append, List.count_replicate]
    decide
  have hest : estimate ⟨8, List.replicate 255 1 ++ [0]⟩ =
      0.7213 / (1 + 1.079 / (2 : ℚ) ^ 8) * (2 : ℚ) ^ 8 * (2 : ℚ) ^ 8 * (1 / (257 / 2)) := by
    rw [estimate_eq _ (by decide)]
    simp only [List.map_append, List.sum_append, List.map_replicate, List.sum_replicate,
      nsmul_eq_mul, List.map_cons, List.map_nil, List.sum_cons, List.sum_nil]
    norm_num
  have hlt : estimate ⟨8, List.replicate 255 1 ++ [0]⟩ < 5 / 2 * (2 : ℚ) ^ 8 := by
    rw [hest]
    norm_num
  have hbefore : Count ⟨8, List.replicate 255 1 ++ [0]⟩ = 1419 := by
    rw [Count_linear _ (by decide) hlt (by rw [hcount0]; decide), LinearCount_eq _ (by decide)]
    simp only
    rw [hcount0]
    have hb := log_256_bounds
    have h256 : ((2 : ℝ) ^ 8) = 256 := by norm_num
    rw [h256, Nat.cast_one, div_one, Nat.floor_eq_iff (by linarith [hb.1])]
    constructor
    · exact_mod_cast hb.1
    · have : ((1419 : ℕ) : ℝ) + 1 = 1420 := by norm_num
      rw [this]
      exact hb.2
  have hest1 : estimate ⟨8, List.replicate 256 1⟩ =
      0.7213 / (1 + 1.079 / (2 : ℚ) ^ 8) * (2 : ℚ) ^ 8 * (2 : ℚ) ^ 8 * (1 / 128) := by
    rw [estimate_eq _ (by decide)]
    simp only [List.map_replicate, List.sum_replicate, nsmul_eq_mul]
    norm_num
  have hcount1 : (List.replicate 256 1).count 0 = 0 := by
    rw [List.count_replicate]
    decide
  have hafter : Count ⟨8, List.replicate 256 1⟩ = 367 := by
    have hfl : uint64Floor (estimate ⟨8, List.replicate 256 1⟩) = 367 := by
      rw [hest1, uint64Floor_of_lt (by norm_num), Nat.floor_eq_iff (by norm_num)]
      constructor <;> norm_num
    simp only [Count, countZeros_eq, hcount1]
    simp only [ne_eq, not_true_eq_false, if_false, ite_self]
    exact hfl
  refine ⟨_, _, _, rfl, hall, hreach, by decide, hadd, rfl, rfl, hbefore, hafter, ?_⟩
  rw [hbefore, hafter]
  decide

/-! ## The formula of Count outside the range of uint64 -/

theorem estimate_all_57 :
    estimate ⟨8, List.replicate 256 57⟩ =
      0.7213 / (1 + 1.079 / (2 : ℚ) ^ 8) * (2 : ℚ) ^ 8 * (2 : ℚ) ^ 8 *
        (1 / (256 * (2 : ℚ) ^ (-(57 : ℤ)))) := by
  rw [estimate_eq _ (by decide)]
  simp only [List.map_replicate, List.sum_replicate, nsmul_eq_mul]
  norm_num

theorem Count_all_57 : Count ⟨8, List.replicate 256 57⟩ = 2 ^ 63 := by
  have hbig : (2 : ℚ) ^ 64 ≤ estimate ⟨8, List.replicate 256 57⟩ := by
    rw [estimate_all_57]
    norm_num
  have hnot : ¬ estimate ⟨8, List.replicate 256 57⟩ < 5 / 2 * (2 : ℚ) ^ 8 := by
    have : (5 : ℚ) / 2 * 2 ^ 8 < 2 ^ 64 := by norm_num
    intro h
    linarith
  rw [Count_eq_uint64Floor, CountValue_eq _ (by decide)]
  simp only
  rw [if_neg hnot]
  apply uint64Floor_of_ge
  exact_mod_cast hbig

theorem CountSpec_all_57 :
    CountSpec 8 (List.replicate 256 57) = 26499581405668102743 := by
  have hcount : (List.replicate 256 57).count 0 = 0 := by
    rw [List.count_replicate]
    decide
  have hn : ¬ (rawEstimateSpec 8 (List.replicate 256 57) < 2.5 * (2 : ℝ) ^ 8 ∧
      (List.replicate 256 57).count 0 ≠ 0) := fun h => h.2 hcount
  have hE : rawEstimateSpec 8 (List.replicate 256 57) =
      0.7213 / (1 + 1.079 / (2 : ℝ) ^ 8) * ((2 : ℝ) ^ 8) ^ 2 *
        (1 / (256 * (2 : ℝ) ^ (-(57 : ℤ)))) := by
    unfold rawEstimateSpec
    rw [List.map_replicate, List.sum_replicate, nsmul_eq_mul]
    norm_num
  unfold CountSpec
  rw [if_neg hn, hE, Nat.floor_eq_iff (by positivity)]
  constructor <;> norm_num

/-- The counterexample to C2 as stated: at width 8, after the 256 keys `i << 56` for
`i = 0..255`, the state has `registerWidth` 8 and `2 ^ 8` registers, all 57; the
formula of the claim gives `floor(E) = 26499581405668102743`, which is not a 64-bit
unsigned integer, and `Count`, whose result is one, returns `2 ^ 63`. -/
theorem Count_formula_fails_out_of_range :
    ∃ e0 e, NewHLL 8 = some e0 ∧
      AddAll e0 ((List.range 256).map (fun i => i <<< 56)) = some e ∧
      Reachable 8 e ∧ e.registerWidth = 8 ∧ e.registers.length = 2 ^ 8 ∧
      e.registers = List.replicate 256 57 ∧
      CountSpec e.registerWidth e.registers = 26499581405668102743 ∧
      Count e = 2 ^ 63 ∧
      Count e ≠ CountSpec e.registerWidth e.registers ∧
      ∀ r, r < 2 ^ 64 → r ≠ CountSpec e.registerWidth e.registers := by
  have hall := AddAll_zero_remainder_keys
  have hreach : Reachable 8 ⟨8, List.replicate 256 57⟩ :=
    AddAll_reachable _ _ _ (Reachable.fresh _ rfl) zero_remainder_keys_lt hall
  refine ⟨_, _, rfl, hall, hreach, rfl, List.length_replicate _ _, rfl, CountSpec_all_57,
    Count_all_57, ?_, ?_⟩
  · rw [Count_all_57]
    simp only
    rw [CountSpec_all_57]
    decide
  · intro r hr
    simp only
    rw [CountSpec_all_57]
    omega

end HyperLogLog
